import Mathlib

/-!
Verification of the copilot-usage-tracker core: a shallow embedding of the
spend calculator (`src/copilot_usage/calculator.py`) and the log parser
(`src/copilot_usage/log_parser.py`), with theorems settling the frozen
claims about them.

Modelling conventions:
* Python `float` values (multipliers, rates, prices) are modelled as `ℚ`;
  all the claims under study are exact-arithmetic identities.
* Python `int` values are modelled as `ℤ` (counters that start at 0 and
  only grow are `ℕ`).
* `datetime` values are modelled as microseconds since an epoch (`ℤ`)
  where only ordering and differences matter, and as an explicit
  year/month/day record where calendar structure matters.
* Python `dict` used as an insertion-ordered map is modelled as an
  association list; `dict.get` lookups are modelled as `String → Option _`
  functions.
-/

set_option maxRecDepth 4000

namespace CopilotUsage

/-- `models.Plan`: a subscription plan (`models.py`). -/
structure Plan where
  name : String
  price_monthly : ℚ
  included_premium_reqs : ℤ
  overage_rate : ℚ
  allows_overage : Bool := true
  deriving Repr, DecidableEq

/-- `models.UsageRecord`: one metered invocation (`models.py`).
Timestamps are microseconds since an epoch. -/
structure UsageRecord where
  timestamp : ℤ
  model : String
  multiplier : ℚ
  is_premium : Bool
  initiator : String := "user"
  source_file : String := ""
  prompt_tokens : ℤ := 0
  completion_tokens : ℤ := 0
  cached_tokens : ℤ := 0
  duration_ms : ℤ := 0
  session_id : String := ""
  deriving Repr, DecidableEq

/-- One value of `calculate_spend`'s per-model breakdown dict. -/
structure Entry where
  calls : ℕ := 0
  premium_reqs : ℚ := 0
  overage_reqs : ℚ := 0
  overage_cost : ℚ := 0
  display_name : String := ""
  deriving Repr, DecidableEq

/-- `models.SpendSummary` (`models.py`); `model_breakdown` is an
insertion-ordered association list standing for the Python dict. -/
structure SpendSummary where
  plan : Plan
  total_calls : ℕ := 0
  premium_calls : ℕ := 0
  premium_requests_consumed : ℚ := 0
  included_used : ℚ := 0
  overage_requests : ℚ := 0
  overage_cost : ℚ := 0
  plan_cost : ℚ := 0
  total_estimated_spend : ℚ := 0
  model_breakdown : List (String × Entry) := []
  deriving Repr, DecidableEq

/-- The `defaultdict` default entry in `calculate_spend`. -/
def defaultEntry : Entry := {}

/-- Read a key of the breakdown dict, returning the `defaultdict` default
when absent. -/
def findEntryD (bd : List (String × Entry)) (k : String) : Entry :=
  match bd with
  | [] => defaultEntry
  | (k', e) :: rest => if k' = k then e else findEntryD rest k

/-- Mutate the breakdown dict at key `k` with `f`, creating the
`defaultdict` default first when the key is absent.  Insertion order of a
Python dict is preserved. -/
def updateEntry (bd : List (String × Entry)) (k : String) (f : Entry → Entry) :
    List (String × Entry) :=
  match bd with
  | [] => [(k, f defaultEntry)]
  | (k', e) :: rest =>
      if k' = k then (k', f e) :: rest else (k', e) :: updateEntry rest k f

/-- Stable insertion of a record into a timestamp-sorted list: an earlier
input record is placed before later records with an equal timestamp,
matching the stability of Python's `sorted`. -/
def insertByTimestamp (r : UsageRecord) : List UsageRecord → List UsageRecord
  | [] => [r]
  | x :: xs =>
      if r.timestamp ≤ x.timestamp then r :: x :: xs
      else x :: insertByTimestamp r xs

/-- `sorted(records, key=lambda r: r.timestamp)`: the unique stable sort
by timestamp, modelled as stable insertion sort. -/
def sortByTimestamp : List UsageRecord → List UsageRecord
  | [] => []
  | x :: xs => insertByTimestamp x (sortByTimestamp xs)

/-- The running state of `calculate_spend`'s loop. -/
structure SpendState where
  total_calls : ℕ
  premium_calls : ℕ
  consumed : ℚ
  remaining : ℚ
  breakdown : List (String × Entry)
  deriving Repr, DecidableEq

/-- The per-record breakdown-entry mutation common to every premium
record: `entry["calls"] += 1; entry["premium_reqs"] += mult;
entry["display_name"] = record.model`. -/
def bumpEntry (mult : ℚ) (model : String) (e : Entry) : Entry :=
  { e with calls := e.calls + 1, premium_reqs := e.premium_reqs + mult,
           display_name := model }

/-- The overage part of a breakdown-entry mutation, guarded by
`plan.allows_overage`:
`entry["overage_reqs"] += portion; entry["overage_cost"] += portion * rate`. -/
def addOverage (allowed : Bool) (portion rate : ℚ) (e : Entry) : Entry :=
  if allowed then
    { e with overage_reqs := e.overage_reqs + portion,
             overage_cost := e.overage_cost + portion * rate }
  else e

/-- One iteration of `calculate_spend`'s loop (`calculator.py`, lines
34–67): count the call, and for a premium record resolve the effective
multiplier, charge it, and split it between the remaining included
allowance and overage. -/
def spendStep (plan : Plan) (multipliers : String → Option ℚ)
    (st : SpendState) (r : UsageRecord) : SpendState :=
  let st := { st with total_calls := st.total_calls + 1 }
  if r.is_premium then
    let mult := (multipliers r.model).getD r.multiplier
    let st := { st with
      premium_calls := st.premium_calls + 1,
      consumed := st.consumed + mult }
    if st.remaining ≥ mult then
      -- fully covered by included allowance
      { st with
        breakdown := updateEntry st.breakdown r.model (bumpEntry mult r.model),
        remaining := st.remaining - mult }
    else if st.remaining > 0 then
      -- partially covered: the remainder is overage
      let overage_portion := mult - st.remaining
      { st with
        breakdown := updateEntry st.breakdown r.model (fun e =>
          addOverage plan.allows_overage overage_portion plan.overage_rate
            (bumpEntry mult r.model e)),
        remaining := 0 }
    else
      -- entirely overage
      { st with
        breakdown := updateEntry st.breakdown r.model (fun e =>
          addOverage plan.allows_overage mult plan.overage_rate
            (bumpEntry mult r.model e)) }
  else st

/-- `calculator.calculate_spend`: sort chronologically, replay the records
against the included allowance, then derive the summary fields from the
running totals. -/
def calculate_spend (records : List UsageRecord) (plan : Plan)
    (multipliers : String → Option ℚ) : SpendSummary :=
  let sorted_records := sortByTimestamp records
  let st := sorted_records.foldl (spendStep plan multipliers)
    ⟨0, 0, 0, (plan.included_premium_reqs : ℚ), []⟩
  let included_used := min st.consumed (plan.included_premium_reqs : ℚ)
  let overage_requests := max 0 (st.consumed - (plan.included_premium_reqs : ℚ))
  let overage_cost :=
    if plan.allows_overage then overage_requests * plan.overage_rate else 0
  { plan := plan
    total_calls := st.total_calls
    premium_calls := st.premium_calls
    premium_requests_consumed := st.consumed
    included_used := included_used
    overage_requests := overage_requests
    overage_cost := overage_cost
    plan_cost := plan.price_monthly
    total_estimated_spend := plan.price_monthly + overage_cost
    model_breakdown := st.breakdown }

/-- Sum of the `overage_cost` field over all model-breakdown entries. -/
def sumOverageCost (bd : List (String × Entry)) : ℚ :=
  (bd.map (fun p => p.2.overage_cost)).sum

/-- The effective multiplier of a record:
`multipliers.get(record.model, record.multiplier)`. -/
def effectiveMult (multipliers : String → Option ℚ) (r : UsageRecord) : ℚ :=
  (multipliers r.model).getD r.multiplier

/-- The invariant carried by `calculate_spend`'s loop that relates the
remaining allowance and the breakdown's summed overage cost to the running
consumed total. -/
def SpendInv (A rate : ℚ) (st : SpendState) : Prop :=
  st.remaining = max 0 (A - st.consumed) ∧
    sumOverageCost st.breakdown = (st.consumed - A + st.remaining) * rate

/-! ### Period/range utilities (`calculator.py`, lines 110–145) -/

/-- A Python `datetime`, restricted to the fields the billing-period
computation touches. -/
structure Date where
  year : ℤ
  month : ℤ
  day : ℤ
  hour : ℤ := 0
  minute : ℤ := 0
  second : ℤ := 0
  microsecond : ℤ := 0
  deriving Repr, DecidableEq

/-- Gregorian leap-year rule, as Python's `calendar`/`datetime` use it. -/
def isLeapYear (y : ℤ) : Bool :=
  (y % 4 == 0 && y % 100 != 0) || y % 400 == 0

/-- Number of days in a month of a given year. -/
def daysInMonth (y m : ℤ) : ℤ :=
  if m = 2 then (if isLeapYear y then 29 else 28)
  else if m = 4 ∨ m = 6 ∨ m = 9 ∨ m = 11 then 30 else 31

/-- A structurally valid calendar date (what `datetime.replace` checks
about the date components). -/
def Date.Valid (d : Date) : Prop :=
  1 ≤ d.month ∧ d.month ≤ 12 ∧ 1 ≤ d.day ∧ d.day ≤ daysInMonth d.year d.month

instance (d : Date) : Decidable d.Valid := by
  unfold Date.Valid; infer_instance

/-- `datetime.replace` with full date and time-of-day fields: returns
`none` (a Python `ValueError`) when the date components are invalid. -/
def mkDate (y m d hh mi ss us : ℤ) : Option Date :=
  if 1 ≤ m ∧ m ≤ 12 ∧ 1 ≤ d ∧ d ≤ daysInMonth y m then
    some ⟨y, m, d, hh, mi, ss, us⟩
  else none

/-- `calculator.get_billing_period`: clamp the cycle day to at most 28,
anchor the start in this or the previous calendar month, and set the end
one calendar month after the start.  `none` models the `ValueError` a
`datetime.replace` with an invalid day would raise. -/
def get_billing_period (billing_cycle_day : ℤ) (ref : Date) :
    Option (Date × Date) :=
  let start_day := min billing_cycle_day 28
  let start? : Option Date :=
    if ref.day ≥ start_day then
      mkDate ref.year ref.month start_day 0 0 0 0
    else
      -- go to previous month
      if ref.month = 1 then
        mkDate (ref.year - 1) 12 start_day 0 0 0 0
      else
        mkDate ref.year (ref.month - 1) start_day 0 0 0 0
  match start? with
  | none => none
  | some start =>
      -- end is start + ~1 month
      let end? : Option Date :=
        if start.month = 12 then
          mkDate (start.year + 1) 1 start.day
            start.hour start.minute start.second start.microsecond
        else
          mkDate start.year (start.month + 1) start.day
            start.hour start.minute start.second start.microsecond
      match end? with
      | none => none
      | some e => some (start, e)

/-- The spec's description of the period end: exactly one calendar month
after the start — same day-of-month, next month, year rollover at
December. -/
def nextCalendarMonth (d : Date) : Date :=
  if d.month = 12 then { d with year := d.year + 1, month := 1 }
  else { d with month := d.month + 1 }

/-- Microseconds per day; `datetime` differences are modelled in
microseconds. -/
def microsPerDay : ℤ := 86400000000

/-- `timedelta(days=7)` in microseconds. -/
def sevenDays : ℤ := 7 * microsPerDay

/-- Days from the civil epoch 1970-01-01 of a Gregorian date
(Howard Hinnant's `days_from_civil` algorithm, using floor division). -/
def daysFromCivil (y m d : ℤ) : ℤ :=
  let y' := if m ≤ 2 then y - 1 else y
  let era := Int.fdiv y' 400
  let yoe := y' - era * 400
  let mp := (m + 9) % 12
  let doy := Int.fdiv (153 * mp + 2) 5 + d - 1
  let doe := yoe * 365 + Int.fdiv yoe 4 - Int.fdiv yoe 100 + doy
  era * 146097 + doe - 719468

/-- A midnight timestamp in microseconds since the epoch. -/
def dateToMicros (y m d : ℤ) : ℤ := daysFromCivil y m d * microsPerDay

/-- `calculator.get_week_ranges`: split `[start, end)` into consecutive
chunks of at most 7 days, truncating the final chunk at `end`. -/
def get_week_ranges (start e : ℤ) : List (ℤ × ℤ) :=
  if start < e then
    let week_end := min (start + sevenDays) e
    (start, week_end) :: get_week_ranges week_end e
  else []
termination_by (e - start).toNat
decreasing_by
  simp only [sevenDays, microsPerDay] at *
  omega

/-! ### Log parser (`log_parser.py`)

The parser works over an abstraction of a log file: regular-expression
matching, ISO-timestamp parsing and brace-balanced JSON extraction are
below the level of the claims under study, so a log file is modelled as
the list of events those extraction steps produce.  A missing file is
modelled as `none`. -/

/-- A `cli.model_call` telemetry block together with the `_timestamp`
taken from its marker line (microseconds).  JSON fields may be absent;
each use site applies its own `dict.get` default. -/
structure ModelCall where
  timestamp : ℤ
  model : Option String := none
  prompt_tokens_count : Option ℤ := none
  completion_tokens_count : Option ℤ := none
  cached_tokens_count : Option ℤ := none
  duration_ms : Option ℤ := none
  session_id : Option String := none
  deriving Repr, DecidableEq

/-- A `Got model info` event together with the context recovered around
it: `family` is the resolved `capabilities.family` (falling back to the
nearby `Using model:` name or `"unknown"`), `initiator` and `session_id`
are the results of the bounded window scans. -/
structure ModelInfo where
  timestamp : ℤ
  family : String
  multiplier : ℚ := 0
  is_premium : Bool := false
  initiator : Option String := none
  session_id : Option String := none
  deriving Repr, DecidableEq

/-- The 5-second fallback-matching tolerance, in microseconds. -/
def tolMicros : ℤ := 5000000

/-- Minute-level truncation of a timestamp, the
`ts.strftime("%Y-%m-%dT%H:%M")` part of the exact-pass lookup key. -/
def minuteKey (ts : ℤ) : ℤ := Int.fdiv ts 60000000

/-- The exact-pass lookup key of a telemetry block:
`f"{ts.strftime('%Y-%m-%dT%H:%M')}-{model}"`. -/
def lookupKey (mc : ModelCall) : ℤ × String :=
  (minuteKey mc.timestamp, mc.model.getD "")

/-- Build the exact-pass lookup dict: iterating the telemetry blocks in
file order, a later block with the same key overwrites an earlier one. -/
def buildLookup (mcs : List ModelCall) : ℤ × String → Option ModelCall :=
  mcs.foldl
    (fun look mc => fun k => if k = lookupKey mc then some mc else look k)
    (fun _ => none)

/-- Construct a `UsageRecord` from a model-info event and the (possibly
missing) telemetry block the exact pass found for it
(`parse_log_file`, lines 76–88). -/
def mkRecord (filename : String) (info : ModelInfo) (mc : Option ModelCall) :
    UsageRecord :=
  { timestamp := info.timestamp
    model := info.family
    multiplier := info.multiplier
    is_premium := info.is_premium
    initiator := info.initiator.getD "user"
    source_file := filename
    prompt_tokens := (mc.bind (fun m => m.prompt_tokens_count)).getD 0
    completion_tokens := (mc.bind (fun m => m.completion_tokens_count)).getD 0
    cached_tokens := (mc.bind (fun m => m.cached_tokens_count)).getD 0
    duration_ms := (mc.bind (fun m => m.duration_ms)).getD 0
    session_id :=
      match info.session_id with
      | some s => s
      | none => (mc.bind (fun m => m.session_id)).getD "" }

/-- The exact (minute-level) correlation pass: each model-info event
independently looks up `(minute, family)` in the telemetry dict. -/
def exactPassRecords (filename : String) (infos : List ModelInfo)
    (mcs : List ModelCall) : List UsageRecord :=
  infos.map (fun info =>
    mkRecord filename info (buildLookup mcs (minuteKey info.timestamp, info.family)))

/-- The inner loop of `_enrich_unmatched_records`: scan the telemetry
blocks from absolute index `idx`, keeping the strictly-closest unused
same-model block within the 5-second tolerance (`best` carries the best
index and its time delta so far; `float("inf")` is `none`). -/
def bestMatchAux (r : UsageRecord) (used : List ℕ) :
    List ModelCall → ℕ → Option (ℕ × ℤ) → Option (ℕ × ℤ)
  | [], _, best => best
  | mc :: rest, idx, best =>
      if idx ∈ used then bestMatchAux r used rest (idx + 1) best
      else if mc.model.getD "" ≠ r.model then
        bestMatchAux r used rest (idx + 1) best
      else
        let delta := |mc.timestamp - r.timestamp|
        if (best.all fun b => decide (delta < b.2)) &&
            decide (delta < tolMicros) then
          bestMatchAux r used rest (idx + 1) (some (idx, delta))
        else bestMatchAux r used rest (idx + 1) best

/-- The index of the closest-in-time unused same-model telemetry block
within tolerance, if any. -/
def bestMatch (r : UsageRecord) (used : List ℕ) (mcs : List ModelCall) :
    Option ℕ :=
  (bestMatchAux r used mcs 0 none).map Prod.fst

/-- Copy a matched telemetry block's token/duration fields into a record,
filling the session id only when it is still empty
(`_enrich_unmatched_records`, lines 176–181). -/
def applyMC (r : UsageRecord) (mc : ModelCall) : UsageRecord :=
  { r with
    prompt_tokens := mc.prompt_tokens_count.getD 0
    completion_tokens := mc.completion_tokens_count.getD 0
    cached_tokens := mc.cached_tokens_count.getD 0
    duration_ms := mc.duration_ms.getD 0
    session_id :=
      if r.session_id = "" then mc.session_id.getD "" else r.session_id }

/-- The fallback pass of `_enrich_unmatched_records`: records in order;
a record with token data is skipped; otherwise the best unused block is
claimed (added to `used`) and applied. -/
def enrichGo (mcs : List ModelCall) :
    List UsageRecord → List ℕ → List UsageRecord
  | [], _ => []
  | r :: rs, used =>
      if r.prompt_tokens > 0 then r :: enrichGo mcs rs used
      else
        match bestMatch r used mcs with
        | none => r :: enrichGo mcs rs used
        | some i =>
            applyMC r (mcs.getD i { timestamp := 0 }) ::
              enrichGo mcs rs (i :: used)

/-- Which telemetry-block index each record claims in the fallback pass
(the evolution of the `used_indices` set of the source, per record). -/
def enrichClaims (mcs : List ModelCall) :
    List UsageRecord → List ℕ → List (Option ℕ)
  | [], _ => []
  | r :: rs, used =>
      if r.prompt_tokens > 0 then none :: enrichClaims mcs rs used
      else
        match bestMatch r used mcs with
        | none => none :: enrichClaims mcs rs used
        | some i => some i :: enrichClaims mcs rs (i :: used)

/-- `log_parser._enrich_unmatched_records`. -/
def enrich_unmatched_records (records : List UsageRecord)
    (mcs : List ModelCall) : List UsageRecord :=
  enrichGo mcs records []

/-- `log_parser.parse_log_file` over the abstracted file content:
a missing file yields `[]`; otherwise the exact minute-level pass builds
the records and the fallback pass enriches the misses. -/
def parse_log_file (filename : String)
    (file : Option (List ModelInfo × List ModelCall)) : List UsageRecord :=
  match file with
  | none => []
  | some (infos, mcs) =>
      enrich_unmatched_records (exactPassRecords filename infos mcs) mcs

/-- `log_parser._find_recent_session_id` over the per-line
`RE_SESSION_ID` match results: scan from `around_idx` backward to
`max(0, around_idx - 30)` and return the first (nearest) match.  The
source also computes a forward bound `search_end` but never uses it. -/
def find_recent_session_id (lines : List (Option String))
    (around_idx : ℕ) : Option String :=
  let search_start := around_idx - 30
  ((List.range (around_idx - search_start + 1)).map
    (fun k => around_idx - k)).findSome?
    (fun i => (lines.getD i none))

/-- Modelled from the spec: the session id is recovered by scanning a
bounded window of 30 lines both forward and backward from the marker
line, nearest match winning (backward preferred on a distance tie). -/
def findNearbySessionIdSpec (lines : List (Option String))
    (around_idx : ℕ) : Option String :=
  (List.range 31).findSome? (fun d =>
    match (if d ≤ around_idx then lines.getD (around_idx - d) none
           else none) with
    | some v => some v
    | none => lines.getD (around_idx + d) none)

/-- Eligibility of telemetry block `j` for record `r` in the fallback
pass: in range, unused, same model family, within the 5-second
tolerance. -/
def EligibleMC (mcs : List ModelCall) (used : List ℕ) (r : UsageRecord)
    (j : ℕ) : Prop :=
  ∃ mc, mcs[j]? = some mc ∧ j ∉ used ∧ mc.model.getD "" = r.model ∧
    |mc.timestamp - r.timestamp| < tolMicros

/-- The time delta of block `j` against record `r`. -/
def deltaAt (mcs : List ModelCall) (r : UsageRecord) (j : ℕ) : ℤ :=
  |(mcs.getD j { timestamp := 0 }).timestamp - r.timestamp|

/-- `j` is the block the greedy pass should pick for `r`: eligible, of
minimal delta, and first (smallest index) among the minimal ones. -/
def IsBestChoice (mcs : List ModelCall) (used : List ℕ) (r : UsageRecord)
    (j : ℕ) : Prop :=
  EligibleMC mcs used r j ∧
    ∀ k, EligibleMC mcs used r k →
      deltaAt mcs r j ≤ deltaAt mcs r k ∧
        (deltaAt mcs r k = deltaAt mcs r j → j ≤ k)

/-- The block indices claimed by the records before position `i`,
together with an initial used set. -/
def usedBefore (used : List ℕ) (claims : List (Option ℕ)) (i : ℕ) :
    List ℕ :=
  (claims.take i).filterMap id ++ used

/-- Loop invariant of `bestMatchAux`: `best` is exactly the best choice
among the first `n` block indices (or `none` when no index below `n` is
eligible). -/
def BestSoFar (mcs : List ModelCall) (used : List ℕ) (r : UsageRecord)
    (n : ℕ) : Option (ℕ × ℤ) → Prop
  | none => ∀ k < n, ¬ EligibleMC mcs used r k
  | some (j, d) =>
      j < n ∧ EligibleMC mcs used r j ∧ d = deltaAt mcs r j ∧
        ∀ k < n, EligibleMC mcs used r k →
          d ≤ deltaAt mcs r k ∧ (deltaAt mcs r k = d → j ≤ k)

/-! ### Session extraction (`log_parser.parse_sessions`) -/

/-- A telemetry JSON block as `parse_sessions` sees it (no attached
marker timestamp); absent JSON fields are `none`. -/
structure CallBlock where
  session_id : Option String := none
  prompt_tokens_count : Option ℤ := none
  completion_tokens_count : Option ℤ := none
  cached_tokens_count : Option ℤ := none
  duration_ms : Option ℤ := none
  model : Option String := none
  deriving Repr, DecidableEq

/-- `models.SessionRecord`. -/
structure SessionRecord where
  session_id : String
  start_time : ℤ
  end_time : Option ℤ := none
  models_used : List String := []
  total_turns : ℤ := 0
  total_calls : ℤ := 0
  total_prompt_tokens : ℤ := 0
  total_completion_tokens : ℤ := 0
  total_cached_tokens : ℤ := 0
  total_duration_ms : ℤ := 0
  source_file : String := ""
  deriving Repr, DecidableEq

/-- One log line as `parse_sessions`' loop sees it: its leading ISO
timestamp if any, which markers it matches, the result of the 20-line
forward `_find_nearby_field(..., "session_id")` scan around it, and the
JSON block following it if any. -/
structure SessionLine where
  ts : Option ℤ := none
  isSessionStart : Bool := false
  isTurnEnd : Bool := false
  isModelCall : Bool := false
  nearbySessionId : Option String := none
  block : Option CallBlock := none
  deriving Repr, DecidableEq

/-- First value bound to a key in an insertion-ordered dict. -/
def dictFind? (m : List (String × SessionRecord)) (k : String) :
    Option SessionRecord :=
  match m with
  | [] => none
  | (k', v) :: rest => if k' = k then some v else dictFind? rest k

/-- Python dict assignment: replace the value at an existing key in
place, else append. -/
def dictSet (m : List (String × SessionRecord)) (k : String)
    (v : SessionRecord) : List (String × SessionRecord) :=
  match m with
  | [] => [(k, v)]
  | (k', v') :: rest =>
      if k' = k then (k', v) :: rest else (k', v') :: dictSet rest k v

/-- Mutate the record at a key when present
(the `if sid in sessions` pattern). -/
def dictUpdate (m : List (String × SessionRecord)) (k : String)
    (f : SessionRecord → SessionRecord) : List (String × SessionRecord) :=
  match m with
  | [] => []
  | (k', v) :: rest =>
      if k' = k then (k', f v) :: rest else (k', v) :: dictUpdate rest k f

/-- The `session_start` branch of `parse_sessions`' loop: a nearby
session id plus a known last timestamp create (or re-create) the
session. -/
def applyStart (filename : String) (last : Option ℤ) (line : SessionLine)
    (sessions : List (String × SessionRecord)) :
    List (String × SessionRecord) :=
  if line.isSessionStart then
    match line.nearbySessionId, last with
    | some sid, some t =>
        dictSet sessions sid
          { session_id := sid, start_time := t, source_file := filename }
    | _, _ => sessions
  else sessions

/-- The `assistant_turn_end` branch: increment the matching session's
turn counter. -/
def applyTurnEnd (line : SessionLine)
    (sessions : List (String × SessionRecord)) :
    List (String × SessionRecord) :=
  if line.isTurnEnd then
    match line.nearbySessionId with
    | some sid =>
        dictUpdate sessions sid
          (fun s => { s with total_turns := s.total_turns + 1 })
    | none => sessions
  else sessions

/-- The telemetry branch: accumulate token/duration counters, append the
model name if new, and set the end time to the line's own timestamp when
it has one (`# keep updating to last seen`). -/
def applyModelCall (line : SessionLine)
    (sessions : List (String × SessionRecord)) :
    List (String × SessionRecord) :=
  if line.isModelCall then
    match line.block with
    | some b =>
        dictUpdate sessions (b.session_id.getD "") (fun s =>
          let s := { s with
            total_calls := s.total_calls + 1,
            total_prompt_tokens :=
              s.total_prompt_tokens + b.prompt_tokens_count.getD 0,
            total_completion_tokens :=
              s.total_completion_tokens + b.completion_tokens_count.getD 0,
            total_cached_tokens :=
              s.total_cached_tokens + b.cached_tokens_count.getD 0,
            total_duration_ms :=
              s.total_duration_ms + b.duration_ms.getD 0 }
          let model := b.model.getD "unknown"
          let s :=
            if model ∈ s.models_used then s
            else { s with models_used := s.models_used ++ [model] }
          match line.ts with
          | some t => { s with end_time := some t }
          | none => s)
    | none => sessions
  else sessions

/-- The loop state of `parse_sessions`: the insertion-ordered session
dict and the last timestamp seen on any line. -/
structure SessionsState where
  sessions : List (String × SessionRecord) := []
  last_timestamp : Option ℤ := none
  deriving Repr, DecidableEq

/-- One iteration of `parse_sessions`' loop over one line. -/
def sessionStep (filename : String) (st : SessionsState)
    (line : SessionLine) : SessionsState :=
  let last := match line.ts with
    | some t => some t
    | none => st.last_timestamp
  { sessions :=
      applyModelCall line
        (applyTurnEnd line (applyStart filename last line st.sessions))
    last_timestamp := last }

/-- The loop of `parse_sessions` over the whole line list. -/
def sessionsLoop (filename : String) (lines : List SessionLine) :
    SessionsState :=
  lines.foldl (sessionStep filename) {}

/-- `log_parser.parse_sessions` over the abstracted file content: a
missing file yields `[]`; sessions never assigned an end time are
backfilled with the file's last seen timestamp. -/
def parse_sessions (filename : String)
    (file : Option (List SessionLine)) : List SessionRecord :=
  match file with
  | none => []
  | some lines =>
      let st := sessionsLoop filename lines
      st.sessions.map (fun p =>
        match p.2.end_time, st.last_timestamp with
        | none, some t => { p.2 with end_time := some t }
        | _, _ => p.2)

/-- The end time the loop has recorded for session `sid` after the first
`k` lines of the file. -/
def endTimeAt (filename : String) (lines : List SessionLine) (sid : String)
    (k : ℕ) : Option ℤ :=
  (dictFind? (sessionsLoop filename (lines.take k)).sessions sid).bind
    (fun s => s.end_time)

/-- The timestamps the lines carry, in file order. -/
def tsListOf (lines : List SessionLine) : List ℤ :=
  lines.filterMap (fun l => l.ts)

/-- Line timestamps are nondecreasing in file order. -/
def TsMono (lines : List SessionLine) : Prop :=
  (tsListOf lines).Pairwise (· ≤ ·)

/-- Whether a line is a `session_start` event that creates session
`sid`. -/
def isStartFor (sid : String) (l : SessionLine) : Bool :=
  l.isSessionStart && (l.nearbySessionId == some sid)

/-- How many lines of the file (re-)create session `sid`. -/
def startCount (sid : String) (lines : List SessionLine) : ℕ :=
  (lines.filter (isStartFor sid)).length

/-- The invariant `parse_sessions`' loop maintains over the processed
prefix: the carried last timestamp is the last one the prefix's lines
carry, every recorded end time is bounded by it, and a session exists
only if some processed line started it. -/
def GoodState (st : SessionsState) (processed : List SessionLine) : Prop :=
  st.last_timestamp = (tsListOf processed).getLast? ∧
  (∀ sid rec t, dictFind? st.sessions sid = some rec →
      rec.end_time = some t →
      ∃ L, st.last_timestamp = some L ∧ t ≤ L) ∧
  (∀ sid, (dictFind? st.sessions sid).isSome = true →
      1 ≤ startCount sid processed)

theorem mem_insertByTimestamp {r x : UsageRecord} {l : List UsageRecord} :
    x ∈ insertByTimestamp r l ↔ x = r ∨ x ∈ l := by
  induction l with
  | nil => simp [insertByTimestamp]
  | cons y ys ih =>
      by_cases h : r.timestamp ≤ y.timestamp <;>
        simp [insertByTimestamp, h, ih] <;> tauto

theorem mem_sortByTimestamp {x : UsageRecord} {l : List UsageRecord} :
    x ∈ sortByTimestamp l ↔ x ∈ l := by
  induction l with
  | nil => simp [sortByTimestamp]
  | cons y ys ih => simp [sortByTimestamp, mem_insertByTimestamp, ih]

theorem sumOverageCost_updateEntry (bd : List (String × Entry)) (k : String)
    (f : Entry → Entry) :
    sumOverageCost (updateEntry bd k f) =
      sumOverageCost bd + (f (findEntryD bd k)).overage_cost -
        (findEntryD bd k).overage_cost := by
  induction bd with
  | nil => simp [updateEntry, findEntryD, sumOverageCost, defaultEntry]
  | cons p rest ih =>
      obtain ⟨k', e⟩ := p
      by_cases h : k' = k <;>
        simp only [updateEntry, findEntryD, sumOverageCost, h, if_pos, if_neg,
          if_true, if_false, List.map_cons, List.sum_cons,
          not_false_eq_true] at ih ⊢ <;> linarith

theorem forall_updateEntry {P : Entry → Prop} {bd : List (String × Entry)}
    {k : String} {f : Entry → Entry}
    (hbd : ∀ p ∈ bd, P p.2) (hdef : P (f defaultEntry))
    (hf : ∀ e, P e → P (f e)) :
    ∀ p ∈ updateEntry bd k f, P p.2 := by
  induction bd with
  | nil => simpa [updateEntry] using hdef
  | cons q rest ih =>
      obtain ⟨k', e⟩ := q
      by_cases h : k' = k
      · simp only [updateEntry, if_pos h]
        intro p hp
        rcases List.mem_cons.mp hp with rfl | hp
        · exact hf e (hbd (k', e) (List.mem_cons_self _ _))
        · exact hbd p (List.mem_cons_of_mem _ hp)
      · simp only [updateEntry, if_neg h]
        intro p hp
        rcases List.mem_cons.mp hp with rfl | hp
        · exact hbd (k', e) (List.mem_cons_self _ _)
        · exact ih (fun q hq => hbd q (List.mem_cons_of_mem _ hq)) p hp

theorem bumpEntry_overage_cost (m : ℚ) (n : String) (e : Entry) :
    (bumpEntry m n e).overage_cost = e.overage_cost := rfl

theorem addOverage_overage_cost (p rate : ℚ) (e : Entry) :
    (addOverage true p rate e).overage_cost = e.overage_cost + p * rate := rfl

theorem addOverage_not_allowed (p rate : ℚ) (e : Entry) :
    addOverage false p rate e = e := rfl

theorem spendStep_inv {plan : Plan} {multipliers : String → Option ℚ}
    {st : SpendState} {r : UsageRecord}
    (hov : plan.allows_overage = true)
    (hm : 0 ≤ effectiveMult multipliers r)
    (hinv : SpendInv (plan.included_premium_reqs : ℚ) plan.overage_rate st) :
    SpendInv (plan.included_premium_reqs : ℚ) plan.overage_rate
      (spendStep plan multipliers st r) := by
  obtain ⟨hrem, hsum⟩ := hinv
  set A := (plan.included_premium_reqs : ℚ) with hAdef
  have hrem0 : 0 ≤ st.remaining := by rw [hrem]; exact le_max_left _ _
  by_cases hp : r.is_premium
  · rw [effectiveMult] at hm
    set m := (multipliers r.model).getD r.multiplier with hmdef
    simp only [spendStep, hp, if_true]
    split_ifs with h1 h2
    · -- fully covered
      refine ⟨?_, ?_⟩
      · show st.remaining - m = max 0 (A - (st.consumed + m))
        rcases le_or_lt (A - st.consumed) 0 with hle | hlt
        · have h0 : st.remaining = 0 := by rw [hrem, max_eq_left hle]
          have hm0 : m = 0 := le_antisymm (h0 ▸ h1) hm
          rw [h0, hm0, max_eq_left (by linarith)]
          norm_num
        · have heq : st.remaining = A - st.consumed := by
            rw [hrem, max_eq_right hlt.le]
          rw [max_eq_right (by linarith)]
          linarith
      · show sumOverageCost
            (updateEntry st.breakdown r.model (bumpEntry m r.model)) =
            (st.consumed + m - A + (st.remaining - m)) * plan.overage_rate
        rw [sumOverageCost_updateEntry, bumpEntry_overage_cost, hsum]
        ring
    · -- partially covered
      have hAC : st.remaining = A - st.consumed := by
        rcases le_or_lt (A - st.consumed) 0 with hle | hlt
        · rw [hrem, max_eq_left hle] at h2; exact absurd h2 (lt_irrefl 0)
        · rw [hrem, max_eq_right hlt.le]
      push_neg at h1
      refine ⟨?_, ?_⟩
      · show (0 : ℚ) = max 0 (A - (st.consumed + m))
        rw [max_eq_left (by linarith)]
      · show sumOverageCost (updateEntry st.breakdown r.model (fun e =>
            addOverage plan.allows_overage (m - st.remaining)
              plan.overage_rate (bumpEntry m r.model e))) =
            (st.consumed + m - A + 0) * plan.overage_rate
        rw [sumOverageCost_updateEntry]
        rw [hov, addOverage_overage_cost, bumpEntry_overage_cost, hsum, hAC]
        ring
    · -- entirely overage
      push_neg at h1 h2
      have hr0 : st.remaining = 0 := le_antisymm h2 hrem0
      have hAC : A - st.consumed ≤ 0 := by
        have hmx : max 0 (A - st.consumed) = 0 := by rw [← hrem, hr0]
        exact max_eq_left_iff.mp hmx
      refine ⟨?_, ?_⟩
      · show st.remaining = max 0 (A - (st.consumed + m))
        rw [hr0, max_eq_left (by linarith)]
      · show sumOverageCost (updateEntry st.breakdown r.model (fun e =>
            addOverage plan.allows_overage m
              plan.overage_rate (bumpEntry m r.model e))) =
            (st.consumed + m - A + st.remaining) * plan.overage_rate
        rw [sumOverageCost_updateEntry]
        rw [hov, addOverage_overage_cost, bumpEntry_overage_cost, hsum, hr0]
        ring
  · simpa [spendStep, hp, SpendInv, hrem, hsum] using ⟨hrem, hsum⟩

theorem spendFold_inv {plan : Plan} {multipliers : String → Option ℚ}
    (hov : plan.allows_overage = true) (l : List UsageRecord)
    (hm : ∀ r ∈ l, 0 ≤ effectiveMult multipliers r) (st : SpendState)
    (hinv : SpendInv (plan.included_premium_reqs : ℚ) plan.overage_rate st) :
    SpendInv (plan.included_premium_reqs : ℚ) plan.overage_rate
      (l.foldl (spendStep plan multipliers) st) := by
  induction l generalizing st with
  | nil => simpa using hinv
  | cons r rs ih =>
      simp only [List.foldl_cons]
      exact ih (fun x hx => hm x (List.mem_cons_of_mem _ hx)) _
        (spendStep_inv hov (hm r (List.mem_cons_self _ _)) hinv)

theorem sub_add_max_comm (c A : ℚ) :
    c - A + max 0 (A - c) = max 0 (c - A) := by
  rcases le_total c A with h | h
  · rw [max_eq_right (by linarith), max_eq_left (by linarith)]; ring
  · rw [max_eq_left (by linarith), max_eq_right (by linarith)]; ring

theorem spendStep_breakdown_zero {plan : Plan}
    {multipliers : String → Option ℚ} (hov : plan.allows_overage = false)
    {st : SpendState}
    (h : ∀ p ∈ st.breakdown, p.2.overage_reqs = 0 ∧ p.2.overage_cost = 0)
    (r : UsageRecord) :
    ∀ p ∈ (spendStep plan multipliers st r).breakdown,
      p.2.overage_reqs = 0 ∧ p.2.overage_cost = 0 := by
  have hbump : ∀ (m : ℚ) (n : String) (e : Entry),
      (e.overage_reqs = 0 ∧ e.overage_cost = 0) →
        ((bumpEntry m n e).overage_reqs = 0 ∧
          (bumpEntry m n e).overage_cost = 0) := fun _ _ _ he => he
  have hdef : defaultEntry.overage_reqs = 0 ∧ defaultEntry.overage_cost = 0 :=
    ⟨rfl, rfl⟩
  by_cases hp : r.is_premium <;>
    simp only [spendStep, hp, if_true, if_false, hov, Bool.false_eq_true]
  · split_ifs with h1 h2
    · exact forall_updateEntry
        (P := fun e => e.overage_reqs = 0 ∧ e.overage_cost = 0)
        h (hbump _ _ _ hdef) (hbump _ _)
    · refine forall_updateEntry
        (P := fun e => e.overage_reqs = 0 ∧ e.overage_cost = 0) h ?_ ?_
      · simp only [addOverage_not_allowed]; exact hbump _ _ _ hdef
      · intro e he; simp only [addOverage_not_allowed]; exact hbump _ _ _ he
    · refine forall_updateEntry
        (P := fun e => e.overage_reqs = 0 ∧ e.overage_cost = 0) h ?_ ?_
      · simp only [addOverage_not_allowed]; exact hbump _ _ _ hdef
      · intro e he; simp only [addOverage_not_allowed]; exact hbump _ _ _ he
  · exact h

theorem spendFold_breakdown_zero {plan : Plan}
    {multipliers : String → Option ℚ} (hov : plan.allows_overage = false)
    (l : List UsageRecord) (st : SpendState)
    (h : ∀ p ∈ st.breakdown, p.2.overage_reqs = 0 ∧ p.2.overage_cost = 0) :
    ∀ p ∈ (l.foldl (spendStep plan multipliers) st).breakdown,
      p.2.overage_reqs = 0 ∧ p.2.overage_cost = 0 := by
  induction l generalizing st with
  | nil => simpa using h
  | cons r rs ih =>
      simp only [List.foldl_cons]
      exact ih _ (spendStep_breakdown_zero hov h r)

/-- C1: `calculate_spend` sorts the records by timestamp ascending and lets
the chronologically earliest premium records consume the included
allowance, attributing overage only to the temporally latest records: with
allowance 10 and three premium records of multiplier 6 at strictly
increasing timestamps (given out of order), the result has
`premium_requests_consumed = 18`, `included_used = 10`,
`overage_requests = 8` and `overage_cost = 8 × overage_rate`, and the
per-model overage is 0 for the earliest record, 2 for the middle one and 6
for the latest one. -/
theorem calculate_spend_chronological_attribution (price rate : ℚ) :
    let plan : Plan := ⟨"Pro", price, 10, rate, true⟩
    let r1 : UsageRecord :=
      { timestamp := 1, model := "m1", multiplier := 6, is_premium := true }
    let r2 : UsageRecord :=
      { timestamp := 2, model := "m2", multiplier := 6, is_premium := true }
    let r3 : UsageRecord :=
      { timestamp := 3, model := "m3", multiplier := 6, is_premium := true }
    let s := calculate_spend [r2, r3, r1] plan (fun _ => none)
    s.premium_requests_consumed = 18 ∧ s.included_used = 10 ∧
      s.overage_requests = 8 ∧ s.overage_cost = 8 * rate ∧
      (findEntryD s.model_breakdown "m1").overage_reqs = 0 ∧
      (findEntryD s.model_breakdown "m2").overage_reqs = 2 ∧
      (findEntryD s.model_breakdown "m3").overage_reqs = 6 ∧
      (findEntryD s.model_breakdown "m1").overage_cost = 0 ∧
      (findEntryD s.model_breakdown "m2").overage_cost = 2 * rate ∧
      (findEntryD s.model_breakdown "m3").overage_cost = 6 * rate := by
  norm_num [calculate_spend, sortByTimestamp, insertByTimestamp, spendStep,
    updateEntry, findEntryD, defaultEntry]
  simp [bumpEntry, addOverage, defaultEntry]

/-- C2: when overage is allowed, the model-breakdown `overage_cost`
entries, summed, equal the aggregate `overage_cost` of the summary, even
though the aggregate is derived independently from the running totals.
The nonnegativity hypotheses are the spec's data-model invariants
(multipliers are non-negative rationals; the allowance is a plan budget). -/
theorem calculate_spend_breakdown_sum_eq_overage_cost
    (records : List UsageRecord) (plan : Plan)
    (multipliers : String → Option ℚ)
    (hov : plan.allows_overage = true)
    (hA : 0 ≤ plan.included_premium_reqs)
    (hm : ∀ r ∈ records, 0 ≤ effectiveMult multipliers r) :
    sumOverageCost (calculate_spend records plan multipliers).model_breakdown =
      (calculate_spend records plan multipliers).overage_cost := by
  have hAq : (0 : ℚ) ≤ (plan.included_premium_reqs : ℚ) := by exact_mod_cast hA
  have hinv0 : SpendInv (plan.included_premium_reqs : ℚ) plan.overage_rate
      ⟨0, 0, 0, (plan.included_premium_reqs : ℚ), []⟩ := by
    constructor
    · show (plan.included_premium_reqs : ℚ) =
        max 0 ((plan.included_premium_reqs : ℚ) - 0)
      rw [sub_zero, max_eq_right hAq]
    · show sumOverageCost [] = (0 - (plan.included_premium_reqs : ℚ) +
        (plan.included_premium_reqs : ℚ)) * plan.overage_rate
      simp [sumOverageCost]
  obtain ⟨hrem, hsum⟩ := spendFold_inv hov (sortByTimestamp records)
    (fun r hr => hm r (mem_sortByTimestamp.mp hr)) _ hinv0
  simp only [calculate_spend, hov, if_true]
  rw [hsum, hrem, sub_add_max_comm]

/-- C3: when the plan disallows overage, the summary's `overage_cost` is
exactly 0 and `total_estimated_spend` is exactly the plan's monthly price,
and every model-breakdown entry has zero `overage_reqs` and
`overage_cost`, for every record list and multiplier table. -/
theorem calculate_spend_overage_disallowed
    (records : List UsageRecord) (plan : Plan)
    (multipliers : String → Option ℚ)
    (hov : plan.allows_overage = false) :
    (calculate_spend records plan multipliers).overage_cost = 0 ∧
      (calculate_spend records plan multipliers).total_estimated_spend =
        plan.price_monthly ∧
      ∀ p ∈ (calculate_spend records plan multipliers).model_breakdown,
        p.2.overage_reqs = 0 ∧ p.2.overage_cost = 0 := by
  refine ⟨?_, ?_, ?_⟩
  · simp [calculate_spend, hov]
  · simp [calculate_spend, hov]
  · simp only [calculate_spend]
    exact spendFold_breakdown_zero hov (sortByTimestamp records) _
      (by intro p hp; exact absurd hp (List.not_mem_nil p))

/-- Witness for C2 at a concrete input: one premium record of multiplier 2
against a plan with allowance 1 that allows overage. -/
theorem calculate_spend_breakdown_sum_eq_overage_cost_witness :
    (⟨"Pro", 10, 1, 1/25, true⟩ : Plan).allows_overage = true ∧
    (0 : ℤ) ≤ (⟨"Pro", 10, 1, 1/25, true⟩ : Plan).included_premium_reqs ∧
    sumOverageCost (calculate_spend
        [{ timestamp := 1, model := "a", multiplier := 2, is_premium := true }]
        ⟨"Pro", 10, 1, 1/25, true⟩ (fun _ => none)).model_breakdown =
      (calculate_spend
        [{ timestamp := 1, model := "a", multiplier := 2, is_premium := true }]
        ⟨"Pro", 10, 1, 1/25, true⟩ (fun _ => none)).overage_cost :=
  ⟨rfl, by norm_num,
    calculate_spend_breakdown_sum_eq_overage_cost _ _ _ rfl (by norm_num)
      (by
        intro r hr
        rcases List.mem_singleton.mp hr with rfl
        norm_num [effectiveMult])⟩

/-- Witness for C3 at a concrete input: one premium record of multiplier 3
against a hard-capped plan with allowance 1. -/
theorem calculate_spend_overage_disallowed_witness :
    (⟨"Free", 0, 1, 1/25, false⟩ : Plan).allows_overage = false ∧
    ((calculate_spend
        [{ timestamp := 1, model := "a", multiplier := 3, is_premium := true }]
        ⟨"Free", 0, 1, 1/25, false⟩ (fun _ => none)).overage_cost = 0 ∧
      (calculate_spend
        [{ timestamp := 1, model := "a", multiplier := 3, is_premium := true }]
        ⟨"Free", 0, 1, 1/25, false⟩ (fun _ => none)).total_estimated_spend =
        (⟨"Free", 0, 1, 1/25, false⟩ : Plan).price_monthly ∧
      ∀ p ∈ (calculate_spend
        [{ timestamp := 1, model := "a", multiplier := 3, is_premium := true }]
        ⟨"Free", 0, 1, 1/25, false⟩ (fun _ => none)).model_breakdown,
        p.2.overage_reqs = 0 ∧ p.2.overage_cost = 0) :=
  ⟨rfl, calculate_spend_overage_disallowed _ _ _ rfl⟩

theorem daysInMonth_ge_28 (y m : ℤ) : 28 ≤ daysInMonth y m := by
  unfold daysInMonth
  split_ifs <;> norm_num

theorem mkDate_of_day_le_28 {y m d : ℤ} (hm1 : 1 ≤ m) (hm2 : m ≤ 12)
    (hd1 : 1 ≤ d) (hd2 : d ≤ 28) (hh mi ss us : ℤ) :
    mkDate y m d hh mi ss us = some ⟨y, m, d, hh, mi, ss, us⟩ := by
  unfold mkDate
  rw [if_pos ⟨hm1, hm2, hd1, le_trans hd2 (daysInMonth_ge_28 y m)⟩]

/-- `get_billing_period` on a valid reference and cycle day: the start is
the clamped day in this or the previous month, and the end is exactly one
calendar month later. -/
theorem get_billing_period_eq {c : ℤ} {ref : Date}
    (hc : 1 ≤ c) (href : ref.Valid) :
    ∃ s e, get_billing_period c ref = some (s, e) ∧
      s.day = min c 28 ∧
      s.hour = 0 ∧ s.minute = 0 ∧ s.second = 0 ∧ s.microsecond = 0 ∧
      (min c 28 ≤ ref.day → s.year = ref.year ∧ s.month = ref.month) ∧
      (ref.day < min c 28 →
        (ref.month = 1 → s.year = ref.year - 1 ∧ s.month = 12) ∧
        (ref.month ≠ 1 → s.year = ref.year ∧ s.month = ref.month - 1)) ∧
      e = nextCalendarMonth s := by
  obtain ⟨hm1, hm2, hd1, hd2⟩ := href
  have hsd1 : 1 ≤ min c 28 := le_min hc (by norm_num)
  have hsd28 : min c 28 ≤ 28 := min_le_right _ _
  simp only [get_billing_period]
  by_cases hday : ref.day ≥ min c 28
  · rw [if_pos hday, mkDate_of_day_le_28 hm1 hm2 hsd1 hsd28]
    by_cases h12 : ref.month = 12
    · simp only [h12, if_pos rfl]
      rw [mkDate_of_day_le_28 (by norm_num) (by norm_num) hsd1 hsd28]
      refine ⟨_, _, rfl, rfl, rfl, rfl, rfl, rfl,
        fun _ => ⟨rfl, rfl⟩, fun hlt => absurd hday (not_le.mpr hlt), ?_⟩
      simp [nextCalendarMonth]
    · simp only [if_neg h12]
      rw [mkDate_of_day_le_28 (by omega) (by omega) hsd1 hsd28]
      refine ⟨_, _, rfl, rfl, rfl, rfl, rfl, rfl,
        fun _ => ⟨rfl, rfl⟩, fun hlt => absurd hday (not_le.mpr hlt), ?_⟩
      simp [nextCalendarMonth, h12]
  · rw [if_neg hday]
    push_neg at hday
    by_cases h1 : ref.month = 1
    · rw [if_pos h1, mkDate_of_day_le_28 (by norm_num) (by norm_num) hsd1 hsd28]
      simp only [if_pos rfl]
      rw [mkDate_of_day_le_28 (by norm_num) (by norm_num) hsd1 hsd28]
      refine ⟨_, _, rfl, rfl, rfl, rfl, rfl, rfl,
        fun hle => absurd hday (not_lt.mpr hle),
        fun _ => ⟨fun _ => ⟨rfl, rfl⟩, fun hne => absurd h1 hne⟩, ?_⟩
      simp [nextCalendarMonth]
    · rw [if_neg h1, mkDate_of_day_le_28 (by omega) (by omega) hsd1 hsd28]
      have hne12 : ref.month - 1 ≠ 12 := by omega
      simp only [if_neg hne12]
      rw [mkDate_of_day_le_28 (by omega) (by omega) hsd1 hsd28]
      refine ⟨_, _, rfl, rfl, rfl, rfl, rfl, rfl,
        fun hle => absurd hday (not_lt.mpr hle),
        fun _ => ⟨fun h1' => absurd h1' h1, fun _ => ⟨rfl, rfl⟩⟩, ?_⟩
      simp [nextCalendarMonth, hne12]

/-- C4: `get_billing_period` clamps the cycle day to at most 28, starts
the period this month (or the previous month, with year rollback across
January) at that day at midnight, and ends it exactly one calendar month
after the start; including the three concrete cases
`(1, 2026-02-15)`, `(20, 2026-02-10)` and `(15, 2026-01-05)`. -/
theorem get_billing_period_spec (c : ℤ) (ref : Date)
    (hc : 1 ≤ c) (href : ref.Valid) :
    (∃ s e, get_billing_period c ref = some (s, e) ∧
      s.day = min c 28 ∧
      s.hour = 0 ∧ s.minute = 0 ∧ s.second = 0 ∧ s.microsecond = 0 ∧
      (min c 28 ≤ ref.day → s.year = ref.year ∧ s.month = ref.month) ∧
      (ref.day < min c 28 →
        (ref.month = 1 → s.year = ref.year - 1 ∧ s.month = 12) ∧
        (ref.month ≠ 1 → s.year = ref.year ∧ s.month = ref.month - 1)) ∧
      e = nextCalendarMonth s) ∧
    get_billing_period 1 ⟨2026, 2, 15, 0, 0, 0, 0⟩ =
      some (⟨2026, 2, 1, 0, 0, 0, 0⟩, ⟨2026, 3, 1, 0, 0, 0, 0⟩) ∧
    get_billing_period 20 ⟨2026, 2, 10, 0, 0, 0, 0⟩ =
      some (⟨2026, 1, 20, 0, 0, 0, 0⟩, ⟨2026, 2, 20, 0, 0, 0, 0⟩) ∧
    (∃ s e, get_billing_period 15 ⟨2026, 1, 5, 0, 0, 0, 0⟩ = some (s, e) ∧
      s.year = 2025 ∧ s.month = 12) :=
  ⟨get_billing_period_eq hc href, by decide, by decide,
    ⟨⟨2025, 12, 15, 0, 0, 0, 0⟩, ⟨2026, 1, 15, 0, 0, 0, 0⟩,
      by decide, rfl, rfl⟩⟩

/-- Witness for C4 at cycle day 1 and reference 2026-02-15. -/
theorem get_billing_period_spec_witness :
    (1 : ℤ) ≤ 1 ∧ (⟨2026, 2, 15, 0, 0, 0, 0⟩ : Date).Valid ∧
    (∃ s e, get_billing_period 1 ⟨2026, 2, 15, 0, 0, 0, 0⟩ = some (s, e) ∧
      s.day = min 1 28 ∧
      s.hour = 0 ∧ s.minute = 0 ∧ s.second = 0 ∧ s.microsecond = 0 ∧
      (min 1 28 ≤ (⟨2026, 2, 15, 0, 0, 0, 0⟩ : Date).day →
        s.year = 2026 ∧ s.month = 2) ∧
      ((⟨2026, 2, 15, 0, 0, 0, 0⟩ : Date).day < min 1 28 →
        ((2 : ℤ) = 1 → s.year = 2026 - 1 ∧ s.month = 12) ∧
        ((2 : ℤ) ≠ 1 → s.year = 2026 ∧ s.month = 2 - 1)) ∧
      e = nextCalendarMonth s) :=
  ⟨le_refl 1, by decide,
    ((get_billing_period_spec 1 ⟨2026, 2, 15, 0, 0, 0, 0⟩
      (le_refl 1) (by decide)).1)⟩

theorem sevenDays_pos : (0 : ℤ) < sevenDays := by
  norm_num [sevenDays, microsPerDay]

/-- Unfolding characterization of one loop iteration of
`get_week_ranges` when a full chunk fits. -/
theorem get_week_ranges_step {s e : ℤ} (h : s < e) (h2 : s + sevenDays ≤ e) :
    get_week_ranges s e =
      (s, s + sevenDays) :: get_week_ranges (s + sevenDays) e := by
  rw [get_week_ranges.eq_def, if_pos h, min_eq_left h2]

/-- Unfolding characterization of the final, truncated loop iteration of
`get_week_ranges`. -/
theorem get_week_ranges_last {s e : ℤ} (h : s < e) (h2 : e ≤ s + sevenDays) :
    get_week_ranges s e = [(s, e)] := by
  rw [get_week_ranges.eq_def, if_pos h, min_eq_right h2]
  show (s, e) :: get_week_ranges e e = [(s, e)]
  rw [get_week_ranges.eq_def, if_neg (lt_irrefl e)]

theorem get_week_ranges_spec_aux (e : ℤ) :
    ∀ n, ∀ s : ℤ, (e - s).toNat ≤ n → s < e →
      (∃ rest, get_week_ranges s e = (s, min (s + sevenDays) e) :: rest) ∧
      (get_week_ranges s e).getLast?.map Prod.snd = some e ∧
      List.Chain' (fun a b => a.2 = b.1) (get_week_ranges s e) ∧
      ∀ p ∈ get_week_ranges s e,
        p.1 < p.2 ∧ p.2 - p.1 ≤ sevenDays ∧ p.2 ≤ e := by
  intro n
  induction n with
  | zero => intro s hn hlt; omega
  | succ n ih =>
      intro s hn hlt
      have h7 := sevenDays_pos
      have hws : s < min (s + sevenDays) e := lt_min (by linarith) hlt
      have hwe : min (s + sevenDays) e ≤ e := min_le_right _ _
      have hw7 : min (s + sevenDays) e - s ≤ sevenDays := by
        have := min_le_left (s + sevenDays) e
        linarith
      have hunf : get_week_ranges s e =
          (s, min (s + sevenDays) e) ::
            get_week_ranges (min (s + sevenDays) e) e := by
        rw [get_week_ranges.eq_def, if_pos hlt]
      by_cases hcase : min (s + sevenDays) e < e
      · have hn' : (e - min (s + sevenDays) e).toNat ≤ n := by omega
        obtain ⟨⟨rest, hrest⟩, hlast, hchain, hmem⟩ := ih _ hn' hcase
        refine ⟨⟨_, hunf⟩, ?_, ?_, ?_⟩
        · rw [hunf, hrest, List.getLast?_cons_cons, ← hrest, hlast]
        · rw [hunf]
          refine List.chain'_cons'.mpr ⟨?_, hchain⟩
          intro b hb
          rw [hrest] at hb
          simp only [List.head?_cons, Option.mem_def, Option.some.injEq] at hb
          rw [← hb]
        · intro p hp
          rw [hunf] at hp
          rcases List.mem_cons.mp hp with rfl | hp
          · exact ⟨hws, hw7, hwe⟩
          · exact hmem p hp
      · have hweq : min (s + sevenDays) e = e :=
          le_antisymm hwe (not_lt.mp hcase)
        have hempty : get_week_ranges (min (s + sevenDays) e) e = [] := by
          rw [get_week_ranges.eq_def, if_neg hcase]
        refine ⟨⟨[], by rw [hunf, hempty]⟩, ?_, ?_, ?_⟩
        · rw [hunf, hempty]
          simp [hweq]
        · rw [hunf, hempty]
          simp
        · intro p hp
          rw [hunf, hempty] at hp
          rcases List.mem_cons.mp hp with rfl | hp
          · exact ⟨hws, hw7, hwe⟩
          · exact absurd hp (List.not_mem_nil p)

theorem weeks_of_four_sevens (a : ℤ) :
    get_week_ranges a (a + 4 * sevenDays) =
      [(a, a + sevenDays),
       (a + sevenDays, a + 2 * sevenDays),
       (a + 2 * sevenDays, a + 3 * sevenDays),
       (a + 3 * sevenDays, a + 4 * sevenDays)] := by
  have h7 := sevenDays_pos
  rw [get_week_ranges_step (by linarith) (by linarith),
    get_week_ranges_step (by linarith) (by linarith),
    get_week_ranges_step (by linarith) (by linarith),
    get_week_ranges_last (by linarith) (by linarith)]
  simp only [show a + sevenDays + sevenDays = a + 2 * sevenDays from by ring,
    show a + 2 * sevenDays + sevenDays = a + 3 * sevenDays from by ring,
    show a + 3 * sevenDays + sevenDays = a + 4 * sevenDays from by ring]

/-- C5: for `start < end`, `get_week_ranges` exactly partitions
`[start, end)`: the first chunk starts at `start`, consecutive chunks are
chained end-to-start, every chunk is nonempty, spans at most 7 days and
does not extend past `end`, and the last chunk ends exactly at `end`;
for 2026-02-01 to 2026-03-01 it returns exactly 4 chunks. -/
theorem get_week_ranges_partition (s e : ℤ) (h : s < e) :
    (get_week_ranges s e ≠ [] ∧
      (get_week_ranges s e).head?.map Prod.fst = some s ∧
      (get_week_ranges s e).getLast?.map Prod.snd = some e ∧
      List.Chain' (fun a b => a.2 = b.1) (get_week_ranges s e) ∧
      ∀ p ∈ get_week_ranges s e,
        p.1 < p.2 ∧ p.2 - p.1 ≤ sevenDays ∧ p.2 ≤ e) ∧
    (get_week_ranges (dateToMicros 2026 2 1) (dateToMicros 2026 3 1)).length
      = 4 := by
  obtain ⟨⟨rest, hrest⟩, hlast, hchain, hmem⟩ :=
    get_week_ranges_spec_aux e (e - s).toNat s (le_refl _) h
  have hfeb : dateToMicros 2026 3 1 = dateToMicros 2026 2 1 + 4 * sevenDays :=
    by decide
  refine ⟨⟨?_, ?_, hlast, hchain, hmem⟩, ?_⟩
  · rw [hrest]; exact List.cons_ne_nil _ _
  · rw [hrest]; rfl
  · rw [hfeb, weeks_of_four_sevens]; rfl

/-- Witness for C5 on the range `[0, 1)`. -/
theorem get_week_ranges_partition_witness :
    (0 : ℤ) < 1 ∧
      (get_week_ranges 0 1).getLast?.map Prod.snd = some 1 :=
  ⟨by norm_num, (get_week_ranges_partition 0 1 (by norm_num)).1.2.2.1⟩

/-- C9: a missing file makes both `parse_log_file` and `parse_sessions`
return the empty list; no error path exists. -/
theorem parse_missing_file_returns_empty :
    parse_log_file "process-1.log" none = [] ∧
    parse_sessions "process-1.log" none = [] :=
  ⟨rfl, rfl⟩

/-- C8: `_find_recent_session_id` scans only backward; with the only
`session_id` one line forward of the marker (well inside the 30-line
window the spec describes, whose forward bound the code computes but
never uses), the code finds nothing while the spec's forward-and-backward
scan finds it. -/
theorem find_recent_session_id_misses_forward :
    find_recent_session_id [none, some "sess-x"] 0 = none ∧
    findNearbySessionIdSpec [none, some "sess-x"] 0 = some "sess-x" := by
  decide

theorem buildLookup_nil (k : ℤ × String) : buildLookup [] k = none := rfl

theorem buildLookup_eq_getLast (mcs : List ModelCall) (k : ℤ × String) :
    buildLookup mcs k =
      (mcs.filter (fun mc => decide (lookupKey mc = k))).getLast? := by
  induction mcs using List.reverseRecOn with
  | nil => rfl
  | append_singleton l mc ih =>
      have hfold : buildLookup (l ++ [mc]) k =
          if k = lookupKey mc then some mc else buildLookup l k := by
        simp only [buildLookup, List.foldl_append, List.foldl_cons,
          List.foldl_nil]
      rw [hfold, List.filter_append]
      by_cases hk : lookupKey mc = k
      · rw [if_pos hk.symm]
        have hmc : List.filter (fun mc => decide (lookupKey mc = k)) [mc] =
            [mc] := by simp [hk]
        rw [hmc, List.getLast?_concat]
      · rw [if_neg (fun h => hk h.symm)]
        have hmc : List.filter (fun mc => decide (lookupKey mc = k)) [mc] =
            [] := by simp [hk]
        rw [hmc, List.append_nil, ih]

/-- C10: in the exact pass, the lookup keeps only the last telemetry
block (in file order) for each `(minute, family)` key, and that one block
populates every model-info record whose key matches — the exact pass
imposes no at-most-once-use restriction (shown concretely: two records in
the same minute both take their tokens from the same, last block). -/
theorem exact_pass_last_block_shared (filename : String)
    (infos : List ModelInfo) (mcs : List ModelCall) :
    (∀ k : ℤ × String, buildLookup mcs k =
        (mcs.filter (fun mc => decide (lookupKey mc = k))).getLast?) ∧
    (∀ (i : ℕ) (info : ModelInfo), infos[i]? = some info →
        (exactPassRecords filename infos mcs)[i]? =
          some (mkRecord filename info
            (buildLookup mcs (minuteKey info.timestamp, info.family)))) ∧
    ((exactPassRecords "f"
        [{ timestamp := 2000000, family := "m" },
         { timestamp := 3000000, family := "m" }]
        [{ timestamp := 0, model := some "m",
           prompt_tokens_count := some 11 },
         { timestamp := 1000000, model := some "m",
           prompt_tokens_count := some 22 }]).map
      (fun r => r.prompt_tokens)) = [22, 22] := by
  refine ⟨buildLookup_eq_getLast mcs, ?_, ?_⟩
  · intro i info hi
    simp [exactPassRecords, List.getElem?_map, hi]
  · rfl

/-- Counterexample to C7 as stated: with log lines whose timestamps are
out of order (200 then 150), the session's end time is first set to 200
and then moves backward to 150, because the loop overwrites it with the
timestamp of every matching telemetry line (`# keep updating to last
seen`). -/
theorem parse_sessions_end_time_regresses :
    endTimeAt "f"
      [{ ts := some 100, isSessionStart := true,
         nearbySessionId := some "s" },
       { ts := some 200, isModelCall := true,
         block := some { session_id := some "s" } },
       { ts := some 150, isModelCall := true,
         block := some { session_id := some "s" } }] "s" 2 = some 200 ∧
    endTimeAt "f"
      [{ ts := some 100, isSessionStart := true,
         nearbySessionId := some "s" },
       { ts := some 200, isModelCall := true,
         block := some { session_id := some "s" } },
       { ts := some 150, isModelCall := true,
         block := some { session_id := some "s" } }] "s" 3 = some 150 ∧
    (150 : ℤ) < 200 := by
  decide

theorem dictFind?_set_self (m : List (String × SessionRecord)) (k : String)
    (v : SessionRecord) : dictFind? (dictSet m k v) k = some v := by
  induction m with
  | nil => simp [dictSet, dictFind?]
  | cons p rest ih =>
      obtain ⟨k', v'⟩ := p
      by_cases h : k' = k <;> simp [dictSet, dictFind?, h, ih]

theorem dictFind?_set_ne (m : List (String × SessionRecord))
    {k k' : String} (h : k' ≠ k) (v : SessionRecord) :
    dictFind? (dictSet m k' v) k = dictFind? m k := by
  induction m with
  | nil => simp [dictSet, dictFind?, h]
  | cons p rest ih =>
      obtain ⟨k₀, v₀⟩ := p
      by_cases h0 : k₀ = k'
      · subst h0
        simp [dictSet, dictFind?, h]
      · simp only [dictSet, if_neg h0, dictFind?]
        by_cases h1 : k₀ = k <;> simp [h1, ih]

theorem dictFind?_update_self (m : List (String × SessionRecord))
    (k : String) (f : SessionRecord → SessionRecord) :
    dictFind? (dictUpdate m k f) k = (dictFind? m k).map f := by
  induction m with
  | nil => simp [dictUpdate, dictFind?]
  | cons p rest ih =>
      obtain ⟨k', v⟩ := p
      by_cases h : k' = k <;> simp [dictUpdate, dictFind?, h, ih]

theorem dictFind?_update_ne (m : List (String × SessionRecord))
    {k k' : String} (h : k' ≠ k) (f : SessionRecord → SessionRecord) :
    dictFind? (dictUpdate m k' f) k = dictFind? m k := by
  induction m with
  | nil => simp [dictUpdate, dictFind?]
  | cons p rest ih =>
      obtain ⟨k₀, v₀⟩ := p
      by_cases h0 : k₀ = k'
      · subst h0
        simp [dictUpdate, dictFind?, h]
      · simp only [dictUpdate, if_neg h0, dictFind?]
        by_cases h1 : k₀ = k <;> simp [h1, ih]

theorem dictFind?_update (m : List (String × SessionRecord)) (k k' : String)
    (f : SessionRecord → SessionRecord) :
    dictFind? (dictUpdate m k' f) k =
      if k' = k then (dictFind? m k).map f else dictFind? m k := by
  by_cases h : k' = k
  · subst h; simp [dictFind?_update_self]
  · simp [h, dictFind?_update_ne m h]

theorem dictFind?_set_isSome (m : List (String × SessionRecord))
    (k k' : String) (v : SessionRecord)
    (h : (dictFind? (dictSet m k' v) k).isSome = true) :
    (dictFind? m k).isSome = true ∨ k' = k := by
  by_cases hk : k' = k
  · exact Or.inr hk
  · rw [dictFind?_set_ne m hk] at h
    exact Or.inl h

/-- `applyStart` leaves every other session id untouched. -/
theorem applyStart_find_of_not_start (filename : String) (last : Option ℤ)
    (line : SessionLine) (sessions : List (String × SessionRecord))
    {sid : String} (h : isStartFor sid line = false) :
    dictFind? (applyStart filename last line sessions) sid =
      dictFind? sessions sid := by
  unfold applyStart
  by_cases hs : line.isSessionStart
  · rw [if_pos hs]
    match hn : line.nearbySessionId, hl : last with
    | some sid', some t =>
        have hne : sid' ≠ sid := by
          intro rfl'
          rw [isStartFor, hs, hn] at h
          simp at h
          exact h rfl'
        exact dictFind?_set_ne _ hne _
    | some sid', none => rfl
    | none, some t => rfl
    | none, none => rfl
  · rw [if_neg hs]

/-- `applyStart` either leaves a session id's entry unchanged or
re-creates it with no end time. -/
theorem applyStart_cases (filename : String) (last : Option ℤ)
    (line : SessionLine) (m : List (String × SessionRecord))
    (sid : String) :
    dictFind? (applyStart filename last line m) sid = dictFind? m sid ∨
    ∃ rec, dictFind? (applyStart filename last line m) sid = some rec ∧
      rec.end_time = none := by
  unfold applyStart
  by_cases hs : line.isSessionStart
  · rw [if_pos hs]
    match hn : line.nearbySessionId, hl : last with
    | some sid', some t =>
        by_cases he : sid' = sid
        · subst he
          exact Or.inr ⟨_, dictFind?_set_self m sid' _, rfl⟩
        · exact Or.inl (dictFind?_set_ne m he _)
    | some sid', none => exact Or.inl rfl
    | none, some t => exact Or.inl rfl
    | none, none => exact Or.inl rfl
  · rw [if_neg hs]
    exact Or.inl rfl

/-- `applyTurnEnd` never changes any recorded end time. -/
theorem applyTurnEnd_end (line : SessionLine)
    (m : List (String × SessionRecord)) (sid : String) :
    (dictFind? (applyTurnEnd line m) sid).map (fun s => s.end_time) =
      (dictFind? m sid).map (fun s => s.end_time) := by
  unfold applyTurnEnd
  by_cases ht : line.isTurnEnd
  · rw [if_pos ht]
    match hn : line.nearbySessionId with
    | some sid' =>
        rw [dictFind?_update]
        by_cases he : sid' = sid
        · rw [if_pos he]
          cases dictFind? m sid <;> rfl
        · rw [if_neg he]
    | none => rfl
  · rw [if_neg ht]

/-- `applyModelCall` either leaves a session's end time unchanged or sets
it to the line's own timestamp. -/
theorem applyModelCall_end_cases (line : SessionLine)
    (m : List (String × SessionRecord)) (sid : String) :
    ((dictFind? (applyModelCall line m) sid).map (fun s => s.end_time) =
      (dictFind? m sid).map (fun s => s.end_time)) ∨
    (∃ u, line.ts = some u ∧
      (dictFind? (applyModelCall line m) sid).map (fun s => s.end_time) =
        (dictFind? m sid).map (fun _ => some u)) := by
  unfold applyModelCall
  by_cases hc : line.isModelCall
  · rw [if_pos hc]
    match hb : line.block with
    | some b =>
        rw [dictFind?_update]
        by_cases he : b.session_id.getD "" = sid
        · rw [if_pos he]
          match hts : line.ts with
          | some u =>
              refine Or.inr ⟨u, rfl, ?_⟩
              cases dictFind? m sid <;> simp
          | none =>
              refine Or.inl ?_
              cases dictFind? m sid with
              | none => rfl
              | some v =>
                  simp only [Option.map_some']
                  split_ifs <;> rfl
        · rw [if_neg he]
          exact Or.inl rfl
    | none => exact Or.inl rfl
  · rw [if_neg hc]
    exact Or.inl rfl

theorem dictFind?_update_isSome (m : List (String × SessionRecord))
    (k : String) (f : SessionRecord → SessionRecord) (sid : String) :
    (dictFind? (dictUpdate m k f) sid).isSome =
      (dictFind? m sid).isSome := by
  rw [dictFind?_update]
  by_cases h : k = sid
  · rw [if_pos h]
    cases dictFind? m sid <;> rfl
  · rw [if_neg h]

/-- A session exists after a step only if it existed before or the line
(re-)started it. -/
theorem step_isSome_cases (filename : String) (last : Option ℤ)
    (line : SessionLine) (m : List (String × SessionRecord)) (sid : String)
    (h : (dictFind? (applyModelCall line
        (applyTurnEnd line (applyStart filename last line m))) sid).isSome
      = true) :
    (dictFind? m sid).isSome = true ∨ isStartFor sid line = true := by
  by_cases hstart : isStartFor sid line = true
  · exact Or.inr hstart
  · refine Or.inl ?_
    have h1 : dictFind? (applyStart filename last line m) sid =
        dictFind? m sid :=
      applyStart_find_of_not_start filename last line m
        (by simpa using hstart)
    have h2 : (dictFind? (applyTurnEnd line
        (applyStart filename last line m)) sid).isSome =
        (dictFind? m sid).isSome := by
      unfold applyTurnEnd
      by_cases ht : line.isTurnEnd
      · rw [if_pos ht]
        match hn : line.nearbySessionId with
        | some sid' => rw [dictFind?_update_isSome, h1]
        | none => rw [h1]
      · rw [if_neg ht, h1]
    have h3 : (dictFind? (applyModelCall line (applyTurnEnd line
        (applyStart filename last line m))) sid).isSome =
        (dictFind? m sid).isSome := by
      unfold applyModelCall
      by_cases hc : line.isModelCall
      · rw [if_pos hc]
        match hb : line.block with
        | some b => rw [dictFind?_update_isSome, h2]
        | none => exact h2
      · rw [if_neg hc]
        exact h2
    rw [← h3]
    exact h

theorem startCount_append (sid : String) (l₁ l₂ : List SessionLine) :
    startCount sid (l₁ ++ l₂) = startCount sid l₁ + startCount sid l₂ := by
  simp [startCount, List.filter_append]

theorem sessionStep_last (filename : String) (st : SessionsState)
    (line : SessionLine) :
    (sessionStep filename st line).last_timestamp =
      match line.ts with
      | some t => some t
      | none => st.last_timestamp := rfl

theorem sessionStep_sessions (filename : String) (st : SessionsState)
    (line : SessionLine) :
    (sessionStep filename st line).sessions =
      applyModelCall line (applyTurnEnd line
        (applyStart filename (sessionStep filename st line).last_timestamp
          line st.sessions)) := rfl

theorem goodState_init : GoodState {} [] := by
  refine ⟨rfl, ?_, ?_⟩
  · intro sid rec t h
    simp [dictFind?] at h
  · intro sid h
    simp [dictFind?] at h

theorem goodState_step (filename : String) {st : SessionsState}
    {pre : List SessionLine} (line : SessionLine)
    (hg : GoodState st pre)
    (hnext : ∀ L u, st.last_timestamp = some L → line.ts = some u → L ≤ u) :
    GoodState (sessionStep filename st line) (pre ++ [line]) := by
  obtain ⟨hlast, hend, hdom⟩ := hg
  refine ⟨?_, ?_, ?_⟩
  · rw [sessionStep_last]
    have hsplit : tsListOf (pre ++ [line]) = tsListOf pre ++ tsListOf [line] := by
      simp [tsListOf]
    rw [hsplit]
    match hts : line.ts with
    | some t =>
        have h1 : tsListOf [line] = [t] := by simp [tsListOf, hts]
        rw [h1, List.getLast?_concat]
    | none =>
        have h1 : tsListOf [line] = [] := by simp [tsListOf, hts]
        rw [h1, List.append_nil, hlast]
  · intro sid rec t hfind hrec
    rw [sessionStep_sessions] at hfind
    have hproj : (dictFind? (applyModelCall line (applyTurnEnd line
        (applyStart filename (sessionStep filename st line).last_timestamp
          line st.sessions))) sid).map (fun s => s.end_time) =
        some (some t) := by
      rw [hfind, Option.map_some', hrec]
    rcases applyModelCall_end_cases line (applyTurnEnd line
        (applyStart filename (sessionStep filename st line).last_timestamp
          line st.sessions)) sid with hmc | ⟨u, hu, hmc⟩
    · rw [hmc, applyTurnEnd_end] at hproj
      rcases applyStart_cases filename
          (sessionStep filename st line).last_timestamp line st.sessions sid
        with hst | ⟨rec0, hrec0, hrec0end⟩
      · rw [hst] at hproj
        match hm0 : dictFind? st.sessions sid with
        | none => rw [hm0] at hproj; exact absurd hproj (by simp)
        | some rec0 =>
            rw [hm0, Option.map_some'] at hproj
            have hrec0t : rec0.end_time = some t := by
              exact Option.some.inj hproj
            obtain ⟨L, hL, htL⟩ := hend sid rec0 t hm0 hrec0t
            rw [sessionStep_last]
            match hts : line.ts with
            | some u => exact ⟨u, rfl, le_trans htL (hnext L u hL hts)⟩
            | none => exact ⟨L, hL, htL⟩
      · rw [hrec0, Option.map_some', hrec0end] at hproj
        exact absurd (Option.some.inj hproj) (by simp)
    · rw [hmc] at hproj
      match hm2 : dictFind? (applyTurnEnd line
          (applyStart filename (sessionStep filename st line).last_timestamp
            line st.sessions)) sid with
      | none => rw [hm2] at hproj; exact absurd hproj (by simp)
      | some rec2 =>
          rw [hm2, Option.map_some'] at hproj
          have : some u = some t := Option.some.inj hproj
          have hut : u = t := Option.some.inj this
          rw [sessionStep_last, hu]
          exact ⟨u, rfl, le_of_eq hut.symm⟩
  · intro sid hsid
    rw [sessionStep_sessions] at hsid
    rw [startCount_append]
    rcases step_isSome_cases filename
        (sessionStep filename st line).last_timestamp line st.sessions sid
        hsid with hdom0 | hstart
    · exact le_trans (hdom sid hdom0) (Nat.le_add_right _ _)
    · have : startCount sid [line] = 1 := by
        simp [startCount, List.filter, hstart]
      omega

theorem bind_end_of_map_end {o : Option SessionRecord} {v : Option ℤ}
    (h : o.map (fun s => s.end_time) = some v) :
    o.bind (fun s => s.end_time) = v := by
  cases o with
  | none => simp at h
  | some s =>
      simp only [Option.map_some'] at h
      simpa using Option.some.inj h

/-- One loop step never moves an already-set end time backward, provided
the line's timestamp is not older than the ones already seen and the line
does not re-create the session. -/
theorem end_mono_step (filename : String) {st : SessionsState}
    {pre : List SessionLine} (line : SessionLine) (sid : String)
    (hg : GoodState st pre)
    (hnext : ∀ L u, st.last_timestamp = some L → line.ts = some u → L ≤ u)
    (hnostart : isStartFor sid line = false)
    {t : ℤ}
    (hend : (dictFind? st.sessions sid).bind (fun s => s.end_time) = some t) :
    ∃ t', (dictFind? (sessionStep filename st line).sessions sid).bind
        (fun s => s.end_time) = some t' ∧ t ≤ t' := by
  obtain ⟨hlast, hendI, hdom⟩ := hg
  obtain ⟨rec, hrec, hrecend⟩ :
      ∃ rec, dictFind? st.sessions sid = some rec ∧
        rec.end_time = some t := by
    match hm : dictFind? st.sessions sid with
    | none => rw [hm] at hend; exact Option.noConfusion hend
    | some rec =>
        rw [hm] at hend
        exact ⟨rec, rfl, hend⟩
  have h1 : dictFind? (applyStart filename
      (sessionStep filename st line).last_timestamp line st.sessions) sid =
      dictFind? st.sessions sid :=
    applyStart_find_of_not_start _ _ _ _ hnostart
  have h2 := applyTurnEnd_end line (applyStart filename
    (sessionStep filename st line).last_timestamp line st.sessions) sid
  rw [h1] at h2
  rcases applyModelCall_end_cases line (applyTurnEnd line
      (applyStart filename (sessionStep filename st line).last_timestamp
        line st.sessions)) sid with hmc | ⟨u, hu, hmc⟩
  · refine ⟨t, ?_, le_refl t⟩
    rw [sessionStep_sessions]
    apply bind_end_of_map_end
    rw [hmc, h2, hrec, Option.map_some', hrecend]
  · obtain ⟨L, hL, htL⟩ := hendI sid rec t hrec hrecend
    have htu : t ≤ u := le_trans htL (hnext L u hL hu)
    refine ⟨u, ?_, htu⟩
    rw [sessionStep_sessions]
    apply bind_end_of_map_end
    rw [hmc]
    have hm2 : ∃ rec2, dictFind? (applyTurnEnd line
        (applyStart filename (sessionStep filename st line).last_timestamp
          line st.sessions)) sid = some rec2 := by
      match hm : dictFind? (applyTurnEnd line
          (applyStart filename (sessionStep filename st line).last_timestamp
            line st.sessions)) sid with
      | none => rw [hm, hrec] at h2; simp at h2
      | some rec2 => exact ⟨rec2, rfl⟩
    obtain ⟨rec2, hrec2⟩ := hm2
    rw [hrec2, Option.map_some']

theorem sessionsLoop_append (filename : String) (l₁ l₂ : List SessionLine) :
    sessionsLoop filename (l₁ ++ l₂) =
      l₂.foldl (sessionStep filename) (sessionsLoop filename l₁) := by
  simp [sessionsLoop, List.foldl_append]

theorem take_succ_concat {α : Type} (l : List α) (k : ℕ)
    (hk : k < l.length) : l.take (k + 1) = l.take k ++ [l[k]] := by
  rw [List.take_succ, List.getElem?_eq_getElem hk]
  rfl

/-- Under monotone timestamps, the timestamp of line `k` is at least the
loop's carried last timestamp after the first `k` lines. -/
theorem run_hnext (filename : String) (lines : List SessionLine)
    (hmono : TsMono lines) (k : ℕ) (hk : k < lines.length)
    (hlastk : (sessionsLoop filename (lines.take k)).last_timestamp =
      (tsListOf (lines.take k)).getLast?) :
    ∀ L u, (sessionsLoop filename (lines.take k)).last_timestamp = some L →
      (lines[k]).ts = some u → L ≤ u := by
  intro L u hL hu
  have hmemL : L ∈ tsListOf (lines.take k) := by
    rw [hlastk] at hL
    obtain ⟨hne, heq⟩ := List.mem_getLast?_eq_getLast (Option.mem_def.mpr hL)
    rw [heq]
    exact List.getLast_mem hne
  have hmemu : u ∈ tsListOf (lines.drop k) := by
    rw [tsListOf, List.mem_filterMap]
    refine ⟨lines[k], ?_, hu⟩
    rw [List.drop_eq_getElem_cons hk]
    exact List.mem_cons_self _ _
  have hsplit : tsListOf lines =
      tsListOf (lines.take k) ++ tsListOf (lines.drop k) := by
    rw [tsListOf, tsListOf, tsListOf, ← List.filterMap_append,
      List.take_append_drop]
  have hpw := hmono
  rw [TsMono, hsplit, List.pairwise_append] at hpw
  exact hpw.2.2 L hmemL u hmemu

theorem goodState_run (filename : String) (lines : List SessionLine)
    (hmono : TsMono lines) :
    ∀ k, GoodState (sessionsLoop filename (lines.take k)) (lines.take k) := by
  intro k
  induction k with
  | zero => exact goodState_init
  | succ k ih =>
      by_cases hk : k < lines.length
      · rw [take_succ_concat lines k hk, sessionsLoop_append]
        exact goodState_step filename (lines[k]) ih
          (run_hnext filename lines hmono k hk ih.1)
      · have h1 : lines.take (k + 1) = lines :=
          List.take_of_length_le (by omega)
        have h2 : lines.take k = lines :=
          List.take_of_length_le (by omega)
        rw [h1]
        rw [h2] at ih
        exact ih

/-- C7 (amended): the loop keeps a session's end time equal to the
timestamp of the most recently seen matching telemetry line; provided the
log lines' timestamps are nondecreasing in file order and the session id
is not re-created by a second `session_start` event, an end time once set
only ever advances as further lines are processed. -/
theorem parse_sessions_end_time_monotone (filename : String)
    (lines : List SessionLine) (sid : String)
    (hmono : TsMono lines) (honce : startCount sid lines ≤ 1) :
    ∀ i j, i ≤ j → ∀ t, endTimeAt filename lines sid i = some t →
      ∃ t', endTimeAt filename lines sid j = some t' ∧ t ≤ t' := by
  intro i j hij t hi
  induction j, hij using Nat.le_induction with
  | base => exact ⟨t, hi, le_refl t⟩
  | succ j hij ih =>
      obtain ⟨t₁, hj, ht₁⟩ := ih
      by_cases hk : j < lines.length
      · have hgood := goodState_run filename lines hmono j
        have hsome : (dictFind? (sessionsLoop filename
            (lines.take j)).sessions sid).isSome = true := by
          rw [endTimeAt] at hj
          match hm : dictFind? (sessionsLoop filename
              (lines.take j)).sessions sid with
          | none => rw [hm] at hj; exact Option.noConfusion hj
          | some rec => rfl
        have hnostart : isStartFor sid lines[j] = false := by
          by_contra hcon
          have hcon' : isStartFor sid lines[j] = true := by
            simpa using hcon
          have hc1 : 1 ≤ startCount sid (lines.take j) :=
            hgood.2.2 sid hsome
          have hc2 : 1 ≤ startCount sid (lines.drop j) := by
            rw [List.drop_eq_getElem_cons hk]
            simp only [startCount, List.filter_cons, hcon', if_true,
              List.length_cons]
            omega
          have hct : startCount sid lines =
              startCount sid (lines.take j) + startCount sid (lines.drop j) :=
            by rw [← startCount_append, List.take_append_drop]
          omega
        obtain ⟨t', ht', htt'⟩ := end_mono_step filename
          lines[j] sid hgood
          (run_hnext filename lines hmono j hk hgood.1) hnostart hj
        refine ⟨t', ?_, le_trans ht₁ htt'⟩
        rw [endTimeAt, take_succ_concat lines j hk, sessionsLoop_append]
        exact ht'
      · have h1 : lines.take (j + 1) = lines.take j := by
          rw [List.take_of_length_le (by omega),
            List.take_of_length_le (by omega)]
        rw [endTimeAt, h1]
        exact ⟨t₁, hj, ht₁⟩

/-- Witness for the amended C7 on a three-line file with in-order
timestamps. -/
theorem parse_sessions_end_time_monotone_witness :
    TsMono
      [{ ts := some 100, isSessionStart := true,
         nearbySessionId := some "s" },
       { ts := some 150, isModelCall := true,
         block := some { session_id := some "s" } },
       { ts := some 200, isModelCall := true,
         block := some { session_id := some "s" } }] ∧
    startCount "s"
      [{ ts := some 100, isSessionStart := true,
         nearbySessionId := some "s" },
       { ts := some 150, isModelCall := true,
         block := some { session_id := some "s" } },
       { ts := some 200, isModelCall := true,
         block := some { session_id := some "s" } }] ≤ 1 ∧
    ∃ t', endTimeAt "f"
      [{ ts := some 100, isSessionStart := true,
         nearbySessionId := some "s" },
       { ts := some 150, isModelCall := true,
         block := some { session_id := some "s" } },
       { ts := some 200, isModelCall := true,
         block := some { session_id := some "s" } }] "s" 3 = some t' ∧
      (150 : ℤ) ≤ t' :=
  ⟨by unfold TsMono tsListOf; decide, by decide,
    parse_sessions_end_time_monotone "f"
      [{ ts := some 100, isSessionStart := true,
         nearbySessionId := some "s" },
       { ts := some 150, isModelCall := true,
         block := some { session_id := some "s" } },
       { ts := some 200, isModelCall := true,
         block := some { session_id := some "s" } }] "s"
      (by unfold TsMono tsListOf; decide) (by decide) 2 3 (by omega) 150
      (by decide)⟩

theorem deltaAt_of_getElem? {mcs : List ModelCall} {n : ℕ} {mc : ModelCall}
    (h : mcs[n]? = some mc) (r : UsageRecord) :
    deltaAt mcs r n = |mc.timestamp - r.timestamp| := by
  rw [deltaAt, List.getD_eq_getElem?_getD, h]
  rfl

theorem not_eligible_of_length_le {mcs : List ModelCall} {used : List ℕ}
    {r : UsageRecord} {k : ℕ} (h : mcs.length ≤ k) :
    ¬ EligibleMC mcs used r k := by
  rintro ⟨mc, hmc, -⟩
  rw [List.getElem?_eq_none h] at hmc
  exact Option.noConfusion hmc

theorem bestSoFar_succ_of_not_elig {mcs : List ModelCall} {used : List ℕ}
    {r : UsageRecord} {n : ℕ} {best : Option (ℕ × ℤ)}
    (hb : BestSoFar mcs used r n best)
    (hne : ¬ EligibleMC mcs used r n) :
    BestSoFar mcs used r (n + 1) best := by
  match best with
  | none =>
      intro k hk
      rcases Nat.lt_succ_iff_lt_or_eq.mp hk with hk | rfl
      · exact hb k hk
      · exact hne
  | some (j, d) =>
      obtain ⟨hj, helig, hd, hmin⟩ := hb
      refine ⟨Nat.lt_succ_of_lt hj, helig, hd, ?_⟩
      intro k hk hke
      rcases Nat.lt_succ_iff_lt_or_eq.mp hk with hk | rfl
      · exact hmin k hk hke
      · exact absurd hke hne

theorem eligible_lt_length {mcs : List ModelCall} {used : List ℕ}
    {r : UsageRecord} {j : ℕ} (h : EligibleMC mcs used r j) :
    j < mcs.length := by
  obtain ⟨mc, hmc, -⟩ := h
  by_contra hc
  push_neg at hc
  rw [List.getElem?_eq_none hc] at hmc
  exact Option.noConfusion hmc

theorem bestMatchAux_spec (mcs : List ModelCall) (used : List ℕ)
    (r : UsageRecord) :
    ∀ (rest : List ModelCall) (n : ℕ) (best : Option (ℕ × ℤ)),
      rest = mcs.drop n → BestSoFar mcs used r n best →
      BestSoFar mcs used r mcs.length (bestMatchAux r used rest n best) := by
  intro rest
  induction rest with
  | nil =>
      intro n best hdrop hb
      have hlen : mcs.length ≤ n := by
        by_contra hlt
        push_neg at hlt
        have hcons := List.drop_eq_getElem_cons hlt
        rw [← hdrop] at hcons
        exact List.noConfusion hcons
      rw [bestMatchAux]
      rcases best with - | ⟨j, d⟩
      · intro k hk
        exact hb k (lt_of_lt_of_le hk hlen)
      · obtain ⟨hj, helig, hd, hmin⟩ := hb
        exact ⟨eligible_lt_length helig, helig, hd,
          fun k hk hke => hmin k (lt_of_lt_of_le hk hlen) hke⟩
  | cons mc rest ih =>
      intro n best hdrop hb
      have hn : n < mcs.length := by
        by_contra hc
        push_neg at hc
        rw [List.drop_eq_nil_of_le hc] at hdrop
        exact List.noConfusion hdrop
      rw [List.drop_eq_getElem_cons hn] at hdrop
      obtain ⟨hmceq, hrest⟩ := List.cons.inj hdrop
      have hmcn : mcs[n]? = some mc := by
        rw [List.getElem?_eq_getElem hn, hmceq]
      rw [bestMatchAux]
      by_cases hu : n ∈ used
      · rw [if_pos hu]
        refine ih (n + 1) best hrest (bestSoFar_succ_of_not_elig hb ?_)
        rintro ⟨mc', hmc', hu', -, -⟩
        exact hu' hu
      · rw [if_neg hu]
        by_cases hmodel : mc.model.getD "" ≠ r.model
        · rw [if_pos hmodel]
          refine ih (n + 1) best hrest (bestSoFar_succ_of_not_elig hb ?_)
          rintro ⟨mc', hmc', -, hm', -⟩
          rw [hmcn] at hmc'
          exact hmodel ((Option.some.inj hmc') ▸ hm')
        · rw [if_neg hmodel]
          push_neg at hmodel
          have hdAt : deltaAt mcs r n = |mc.timestamp - r.timestamp| :=
            deltaAt_of_getElem? hmcn r
          rcases best with - | ⟨j0, d0⟩
          · by_cases htol : |mc.timestamp - r.timestamp| < tolMicros
            · have hcond : (((none : Option (ℕ × ℤ)).all
                  fun b => decide (|mc.timestamp - r.timestamp| < b.2)) &&
                    decide (|mc.timestamp - r.timestamp| < tolMicros))
                  = true := by
                simp [Option.all, htol]
              rw [if_pos hcond]
              refine ih (n + 1) _ hrest ?_
              refine ⟨Nat.lt_succ_self n, ⟨mc, hmcn, hu, hmodel, htol⟩,
                hdAt.symm, ?_⟩
              intro k hk hke
              rcases Nat.lt_succ_iff_lt_or_eq.mp hk with hk | rfl
              · exact absurd hke (hb k hk)
              · rw [hdAt]
                exact ⟨le_refl _, fun _ => le_refl _⟩
            · have hcond : ¬ ((((none : Option (ℕ × ℤ)).all
                  fun b => decide (|mc.timestamp - r.timestamp| < b.2)) &&
                    decide (|mc.timestamp - r.timestamp| < tolMicros))
                  = true) := by
                simp [Option.all, htol]
              rw [if_neg hcond]
              refine ih (n + 1) _ hrest
                (bestSoFar_succ_of_not_elig hb ?_)
              rintro ⟨mc', hmc', -, -, ht'⟩
              rw [hmcn] at hmc'
              exact htol ((Option.some.inj hmc') ▸ ht')
          · obtain ⟨hj0, helig0, hd0, hmin0⟩ := hb
            by_cases hcond : (((some (j0, d0)).all
                fun b => decide (|mc.timestamp - r.timestamp| < b.2)) &&
                  decide (|mc.timestamp - r.timestamp| < tolMicros)) = true
            · rw [if_pos hcond]
              rw [Bool.and_eq_true] at hcond
              obtain ⟨ha, hb'⟩ := hcond
              have hlt : |mc.timestamp - r.timestamp| < d0 := by
                simpa [Option.all] using ha
              have htol : |mc.timestamp - r.timestamp| < tolMicros :=
                of_decide_eq_true hb'
              refine ih (n + 1) _ hrest ?_
              refine ⟨Nat.lt_succ_self n, ⟨mc, hmcn, hu, hmodel, htol⟩,
                hdAt.symm, ?_⟩
              intro k hk hke
              rcases Nat.lt_succ_iff_lt_or_eq.mp hk with hk | rfl
              · obtain ⟨hle, -⟩ := hmin0 k hk hke
                constructor
                · linarith
                · intro heq
                  exfalso
                  linarith
              · rw [hdAt]
                exact ⟨le_refl _, fun _ => le_refl _⟩
            · rw [if_neg hcond]
              refine ih (n + 1) _ hrest ?_
              refine ⟨Nat.lt_succ_of_lt hj0, helig0, hd0, ?_⟩
              intro k hk hke
              rcases Nat.lt_succ_iff_lt_or_eq.mp hk with hk | rfl
              · exact hmin0 k hk hke
              · have htol : |mc.timestamp - r.timestamp| < tolMicros := by
                  obtain ⟨mc', hmc', -, -, ht'⟩ := hke
                  rw [hmcn] at hmc'
                  exact (Option.some.inj hmc') ▸ ht'
                have hge : d0 ≤ |mc.timestamp - r.timestamp| := by
                  by_contra hcc
                  push_neg at hcc
                  exact hcond (by simp [Option.all, hcc, htol])
                rw [hdAt]
                exact ⟨hge, fun _ => le_of_lt hj0⟩

theorem bestSoFar_zero (mcs : List ModelCall) (used : List ℕ)
    (r : UsageRecord) : BestSoFar mcs used r 0 none :=
  fun k hk => absurd hk (Nat.not_lt_zero k)

theorem bestMatch_none_spec {mcs : List ModelCall} {used : List ℕ}
    {r : UsageRecord} (h : bestMatch r used mcs = none) :
    ∀ k, ¬ EligibleMC mcs used r k := by
  intro k
  have hspec := bestMatchAux_spec mcs used r mcs 0 none rfl
    (bestSoFar_zero mcs used r)
  rw [bestMatch] at h
  match haux : bestMatchAux r used mcs 0 none with
  | some (j, d) =>
      rw [haux] at h
      exact Option.noConfusion h
  | none =>
      rw [haux] at hspec
      intro hke
      by_cases hk : k < mcs.length
      · exact hspec k hk hke
      · exact not_eligible_of_length_le (le_of_not_lt hk) hke

theorem bestMatch_some_spec {mcs : List ModelCall} {used : List ℕ}
    {r : UsageRecord} {j : ℕ} (h : bestMatch r used mcs = some j) :
    IsBestChoice mcs used r j := by
  have hspec := bestMatchAux_spec mcs used r mcs 0 none rfl
    (bestSoFar_zero mcs used r)
  rw [bestMatch] at h
  match haux : bestMatchAux r used mcs 0 none with
  | none =>
      rw [haux] at h
      exact Option.noConfusion h
  | some (j', d) =>
      rw [haux] at h hspec
      have hj : j' = j := by simpa using h
      subst hj
      obtain ⟨hjlen, helig, hd, hmin⟩ := hspec
      refine ⟨helig, ?_⟩
      intro k hke
      have hk : k < mcs.length := eligible_lt_length hke
      have hmk := hmin k hk hke
      rw [hd] at hmk
      exact hmk

theorem bestMatch_isSome_of_eligible {mcs : List ModelCall}
    {used : List ℕ} {r : UsageRecord} {k : ℕ}
    (hk : EligibleMC mcs used r k) :
    ∃ j, bestMatch r used mcs = some j := by
  match h : bestMatch r used mcs with
  | some j => exact ⟨j, rfl⟩
  | none => exact absurd hk (bestMatch_none_spec h k)

theorem eligible_congr {mcs : List ModelCall} {used used' : List ℕ}
    {r : UsageRecord} {j : ℕ}
    (h : ∀ x : ℕ, x ∈ used ↔ x ∈ used') :
    EligibleMC mcs used r j ↔ EligibleMC mcs used' r j := by
  constructor <;> rintro ⟨mc, h1, h2, h3, h4⟩
  · exact ⟨mc, h1, fun hx => h2 ((h _).mpr hx), h3, h4⟩
  · exact ⟨mc, h1, fun hx => h2 ((h _).mp hx), h3, h4⟩

theorem isBestChoice_congr {mcs : List ModelCall} {used used' : List ℕ}
    {r : UsageRecord} {j : ℕ}
    (h : ∀ x : ℕ, x ∈ used ↔ x ∈ used') :
    IsBestChoice mcs used r j ↔ IsBestChoice mcs used' r j := by
  constructor <;> rintro ⟨he, hmin⟩
  · exact ⟨(eligible_congr h).mp he,
      fun k hk => hmin k ((eligible_congr h).mpr hk)⟩
  · exact ⟨(eligible_congr h).mpr he,
      fun k hk => hmin k ((eligible_congr h).mp hk)⟩

theorem usedBefore_zero (used : List ℕ) (claims : List (Option ℕ)) :
    usedBefore used claims 0 = used := by
  simp [usedBefore]

theorem usedBefore_none_succ (used : List ℕ) (claims : List (Option ℕ))
    (i : ℕ) :
    usedBefore used (none :: claims) (i + 1) = usedBefore used claims i := by
  simp [usedBefore]

theorem usedBefore_some_succ (used : List ℕ) (claims : List (Option ℕ))
    (a i : ℕ) :
    usedBefore used (some a :: claims) (i + 1) =
      a :: usedBefore used claims i := by
  simp [usedBefore]

theorem usedBefore_some_mem (used : List ℕ) (claims : List (Option ℕ))
    (a i : ℕ) (x : ℕ) :
    x ∈ usedBefore used (some a :: claims) (i + 1) ↔
      x ∈ usedBefore (a :: used) claims i := by
  rw [usedBefore_some_succ]
  simp [usedBefore, List.mem_append, List.mem_cons]
  tauto

theorem enrichGo_length (mcs : List ModelCall) :
    ∀ (rs : List UsageRecord) (used : List ℕ),
      (enrichGo mcs rs used).length = rs.length := by
  intro rs
  induction rs with
  | nil => intro used; rfl
  | cons r rs ih =>
      intro used
      rw [enrichGo]
      by_cases hpk : r.prompt_tokens > 0
      · rw [if_pos hpk]
        simp [ih]
      · rw [if_neg hpk]
        match hbm : bestMatch r used mcs with
        | none => simp [ih]
        | some i0 => simp [ih]

theorem enrichClaims_length (mcs : List ModelCall) :
    ∀ (rs : List UsageRecord) (used : List ℕ),
      (enrichClaims mcs rs used).length = rs.length := by
  intro rs
  induction rs with
  | nil => intro used; rfl
  | cons r rs ih =>
      intro used
      rw [enrichClaims]
      by_cases hpk : r.prompt_tokens > 0
      · rw [if_pos hpk]
        simp [ih]
      · rw [if_neg hpk]
        match hbm : bestMatch r used mcs with
        | none => simp [ih]
        | some i0 => simp [ih]

theorem enrich_claims_spec (mcs : List ModelCall) :
    ∀ (rs : List UsageRecord) (used : List ℕ) (i : ℕ) (r0 : UsageRecord),
      rs[i]? = some r0 →
      ((r0.prompt_tokens > 0 →
          (enrichClaims mcs rs used)[i]? = some none) ∧
       ((enrichClaims mcs rs used)[i]? = some none →
          (enrichGo mcs rs used)[i]? = some r0) ∧
       (∀ j, (enrichClaims mcs rs used)[i]? = some (some j) →
          (∃ mc, mcs[j]? = some mc ∧
            (enrichGo mcs rs used)[i]? = some (applyMC r0 mc)) ∧
          IsBestChoice mcs (usedBefore used (enrichClaims mcs rs used) i)
            r0 j) ∧
       (¬ r0.prompt_tokens > 0 →
          (∃ k, EligibleMC mcs
              (usedBefore used (enrichClaims mcs rs used) i) r0 k) →
          ∃ j, (enrichClaims mcs rs used)[i]? = some (some j))) := by
  intro rs
  induction rs with
  | nil =>
      intro used i r0 hi
      rw [List.getElem?_nil] at hi
      exact Option.noConfusion hi
  | cons r rs ih =>
      intro used i r0 hi
      rw [enrichClaims, enrichGo]
      by_cases hpk : r.prompt_tokens > 0
      · rw [if_pos hpk, if_pos hpk]
        match i with
        | 0 =>
            rw [List.getElem?_cons_zero] at hi
            obtain rfl := Option.some.inj hi
            refine ⟨fun _ => List.getElem?_cons_zero,
              fun _ => List.getElem?_cons_zero, ?_, fun hnp => absurd hpk hnp⟩
            intro j hj
            rw [List.getElem?_cons_zero] at hj
            exact Option.noConfusion (Option.some.inj hj)
        | i + 1 =>
            rw [List.getElem?_cons_succ] at hi
            obtain ⟨h1, h2, h3, h4⟩ := ih used i r0 hi
            refine ⟨?_, ?_, ?_, ?_⟩
            · intro hp
              rw [List.getElem?_cons_succ]
              exact h1 hp
            · intro hc
              rw [List.getElem?_cons_succ] at hc ⊢
              exact h2 hc
            · intro j hj
              rw [List.getElem?_cons_succ] at hj
              obtain ⟨hex, hbest⟩ := h3 j hj
              refine ⟨?_, ?_⟩
              · obtain ⟨mc, hmc, hout⟩ := hex
                rw [List.getElem?_cons_succ]
                exact ⟨mc, hmc, hout⟩
              · rw [usedBefore_none_succ]
                exact hbest
            · intro hnp hex
              rw [usedBefore_none_succ] at hex
              obtain ⟨j, hj⟩ := h4 hnp hex
              rw [List.getElem?_cons_succ]
              exact ⟨j, hj⟩
      · rw [if_neg hpk, if_neg hpk]
        match hbm : bestMatch r used mcs with
        | none =>
            dsimp only
            match i with
            | 0 =>
                rw [List.getElem?_cons_zero] at hi
                obtain rfl := Option.some.inj hi
                refine ⟨fun hp => absurd hp hpk,
                  fun _ => List.getElem?_cons_zero, ?_, ?_⟩
                · intro j hj
                  rw [List.getElem?_cons_zero] at hj
                  exact Option.noConfusion (Option.some.inj hj)
                · intro hnp hex
                  rw [usedBefore_zero] at hex
                  obtain ⟨k, hk⟩ := hex
                  obtain ⟨j, hj⟩ := bestMatch_isSome_of_eligible hk
                  rw [hbm] at hj
                  exact Option.noConfusion hj
            | i + 1 =>
                rw [List.getElem?_cons_succ] at hi
                obtain ⟨h1, h2, h3, h4⟩ := ih used i r0 hi
                refine ⟨?_, ?_, ?_, ?_⟩
                · intro hp
                  rw [List.getElem?_cons_succ]
                  exact h1 hp
                · intro hc
                  rw [List.getElem?_cons_succ] at hc ⊢
                  exact h2 hc
                · intro j hj
                  rw [List.getElem?_cons_succ] at hj
                  obtain ⟨hex, hbest⟩ := h3 j hj
                  refine ⟨?_, ?_⟩
                  · obtain ⟨mc, hmc, hout⟩ := hex
                    rw [List.getElem?_cons_succ]
                    exact ⟨mc, hmc, hout⟩
                  · rw [usedBefore_none_succ]
                    exact hbest
                · intro hnp hex
                  rw [usedBefore_none_succ] at hex
                  obtain ⟨j, hj⟩ := h4 hnp hex
                  rw [List.getElem?_cons_succ]
                  exact ⟨j, hj⟩
        | some i0 =>
            dsimp only
            match i with
            | 0 =>
                rw [List.getElem?_cons_zero] at hi
                obtain rfl := Option.some.inj hi
                refine ⟨fun hp => absurd hp hpk, ?_, ?_, ?_⟩
                · intro hc
                  rw [List.getElem?_cons_zero] at hc
                  exact Option.noConfusion (Option.some.inj hc)
                · intro j hj
                  rw [List.getElem?_cons_zero] at hj
                  obtain rfl := Option.some.inj (Option.some.inj hj)
                  have hbest := bestMatch_some_spec hbm
                  obtain ⟨⟨mc, hmc, -, -, -⟩, -⟩ := hbest
                  refine ⟨⟨mc, hmc, ?_⟩, ?_⟩
                  · rw [List.getElem?_cons_zero]
                    have hgd : mcs.getD i0 { timestamp := 0 } = mc := by
                      rw [List.getD_eq_getElem?_getD, hmc]
                      rfl
                    rw [hgd]
                  · rw [usedBefore_zero]
                    exact bestMatch_some_spec hbm
                · intro hnp hex
                  exact ⟨i0, by rw [List.getElem?_cons_zero]⟩
            | i + 1 =>
                rw [List.getElem?_cons_succ] at hi
                obtain ⟨h1, h2, h3, h4⟩ := ih (i0 :: used) i r0 hi
                refine ⟨?_, ?_, ?_, ?_⟩
                · intro hp
                  rw [List.getElem?_cons_succ]
                  exact h1 hp
                · intro hc
                  rw [List.getElem?_cons_succ] at hc ⊢
                  exact h2 hc
                · intro j hj
                  rw [List.getElem?_cons_succ] at hj
                  obtain ⟨hex, hbest⟩ := h3 j hj
                  refine ⟨?_, ?_⟩
                  · obtain ⟨mc, hmc, hout⟩ := hex
                    rw [List.getElem?_cons_succ]
                    exact ⟨mc, hmc, hout⟩
                  · exact (isBestChoice_congr
                      (usedBefore_some_mem used _ i0 i)).mpr hbest
                · intro hnp hex
                  obtain ⟨k, hk⟩ := hex
                  have hk' : EligibleMC mcs
                      (usedBefore (i0 :: used)
                        (enrichClaims mcs rs (i0 :: used)) i) r0 k :=
                    (eligible_congr
                      (usedBefore_some_mem used _ i0 i)).mp hk
                  obtain ⟨j, hj⟩ := h4 hnp ⟨k, hk'⟩
                  rw [List.getElem?_cons_succ]
                  exact ⟨j, hj⟩

theorem enrich_claims_at_most_once (mcs : List ModelCall) :
    ∀ (rs : List UsageRecord) (used : List ℕ),
      (∀ j ∈ (enrichClaims mcs rs used).filterMap id, j ∉ used) ∧
      ((enrichClaims mcs rs used).filterMap id).Nodup := by
  intro rs
  induction rs with
  | nil =>
      intro used
      exact ⟨fun j hj => absurd hj (List.not_mem_nil j), List.nodup_nil⟩
  | cons r rs ih =>
      intro used
      rw [enrichClaims]
      by_cases hpk : r.prompt_tokens > 0
      · rw [if_pos hpk]
        simpa using ih used
      · rw [if_neg hpk]
        match hbm : bestMatch r used mcs with
        | none =>
            simpa using ih used
        | some i0 =>
            have hfm : List.filterMap id
                (some i0 :: enrichClaims mcs rs (i0 :: used)) =
                i0 :: List.filterMap id (enrichClaims mcs rs (i0 :: used)) :=
              by simp
            dsimp only
            rw [hfm]
            obtain ⟨ih1, ih2⟩ := ih (i0 :: used)
            have hi0used : i0 ∉ used := by
              obtain ⟨⟨mc, hmc, hu, -, -⟩, -⟩ := bestMatch_some_spec hbm
              exact hu
            constructor
            · intro j hj
              rcases List.mem_cons.mp hj with rfl | hj
              · exact hi0used
              · have := ih1 j hj
                intro hju
                exact this (List.mem_cons_of_mem _ hju)
            · refine List.nodup_cons.mpr ⟨?_, ih2⟩
              intro hmem
              exact (ih1 i0 hmem) (List.mem_cons_self _ _)

/-- C6: in the fallback pass, every record with token data is untouched;
a record still lacking token data (`prompt_tokens` zero) either gets no
block (when none is eligible) and keeps all its fields, or is assigned the
closest-in-time unused telemetry block of the same model family within
the 5-second tolerance (earliest block index on a distance tie), each
block claimed by at most one record, greedily in record order; a record
with no same-family block within 5 seconds anywhere is returned
unchanged. -/
theorem enrich_unmatched_records_spec (records : List UsageRecord)
    (mcs : List ModelCall) :
    (enrich_unmatched_records records mcs).length = records.length ∧
    (enrichClaims mcs records []).length = records.length ∧
    (∀ (i : ℕ) (r0 : UsageRecord), records[i]? = some r0 →
      ((r0.prompt_tokens > 0 →
          (enrichClaims mcs records [])[i]? = some none) ∧
       ((enrichClaims mcs records [])[i]? = some none →
          (enrich_unmatched_records records mcs)[i]? = some r0) ∧
       (∀ j, (enrichClaims mcs records [])[i]? = some (some j) →
          (∃ mc, mcs[j]? = some mc ∧
            (enrich_unmatched_records records mcs)[i]? =
              some (applyMC r0 mc)) ∧
          IsBestChoice mcs (usedBefore [] (enrichClaims mcs records []) i)
            r0 j) ∧
       (¬ r0.prompt_tokens > 0 →
          (∃ k, EligibleMC mcs
              (usedBefore [] (enrichClaims mcs records []) i) r0 k) →
          ∃ j, (enrichClaims mcs records [])[i]? = some (some j)))) ∧
    ((enrichClaims mcs records []).filterMap id).Nodup ∧
    (∀ (i : ℕ) (r0 : UsageRecord), records[i]? = some r0 →
      ¬ r0.prompt_tokens > 0 →
      (∀ mc ∈ mcs, ¬ (mc.model.getD "" = r0.model ∧
        |mc.timestamp - r0.timestamp| < tolMicros)) →
      (enrich_unmatched_records records mcs)[i]? = some r0) := by
  refine ⟨enrichGo_length mcs records [], enrichClaims_length mcs records [],
    fun i r0 hi => enrich_claims_spec mcs records [] i r0 hi,
    (enrich_claims_at_most_once mcs records []).2, ?_⟩
  intro i r0 hi hnp hnomatch
  obtain ⟨h1, h2, h3, h4⟩ := enrich_claims_spec mcs records [] i r0 hi
  have hilt : i < records.length := by
    by_contra hc
    push_neg at hc
    rw [List.getElem?_eq_none hc] at hi
    exact Option.noConfusion hi
  have hclt : i < (enrichClaims mcs records []).length := by
    rw [enrichClaims_length mcs records []]
    exact hilt
  obtain ⟨c, hc⟩ : ∃ c, (enrichClaims mcs records [])[i]? = some c :=
    ⟨_, List.getElem?_eq_getElem hclt⟩
  match c, hc with
  | none, hc => exact h2 hc
  | some j, hc =>
      obtain ⟨-, ⟨mcj, hmcj, -, hmodel, htol⟩, -⟩ := h3 j hc
      have hmem : mcj ∈ mcs := by
        have := List.getElem?_eq_some.mp hmcj
        obtain ⟨hlt, rfl⟩ := this
        exact List.getElem_mem hlt
      exact absurd ⟨hmodel, htol⟩ (hnomatch mcj hmem)

end CopilotUsage
